import Mathlib

/-!
Verification development for the TS-Jquery style-animation engine.

The subject program is the `animate` subsystem of `src/index.ts` (current
version) and, for the OKLCH color pipeline, the earlier variant of the same
file (`src/unnamed/part_003`).  The embedding is shallow:

* the regular expressions of `parseColor` and of the value classifier are
  embedded as executable character-list matchers with exactly the shape of
  the source patterns;
* JS numbers are modelled as `ℚ` (all arithmetic the claims touch is exact
  decimal arithmetic);
* the per-node animation queue, the `requestAnimationFrame` registry and the
  frame driver are modelled as an explicit state machine (`Sys`) with an
  event trace, one transition per `animate` call and per delivered frame
  callback;
* the canvas that `parseColor` uses as a normalization oracle does not exist
  in the model: following the specification, the oracle is modelled as the
  identity (`computed = input`), so `parseColor` is the pure cascade of the
  explicit parsers of the source.  This is the platform-independent reading
  the specification itself fixes for the resolver.
-/

namespace TSQ

/-! ## JS number helpers -/

/-- JS `Math.round`: round half toward positive infinity. -/
def jsRound (q : ℚ) : ℤ := ⌊q + 1/2⌋

/-- Value of a list of decimal digit characters (the value `parseInt` gives a
capture consisting of digits). -/
def digitsVal (l : List Char) : ℕ :=
  l.foldl (fun a c => 10 * a + (c.toNat - '0'.toNat)) 0

/-- JS `parseInt` applied to a capture of `[\d.]+`: only the leading run of
digits is converted (`parseInt("0.5") = 0`).  Captures with no leading digit
(e.g. ".5") give `NaN` in JS and are outside the modelled domain. -/
def jsParseIntCap (l : List Char) : ℚ :=
  (digitsVal (l.takeWhile Char.isDigit) : ℚ)

/-- JS `parseFloat` applied to a capture of `[\d.]+` (digits with embedded
dots): leading digits, then an optional single fraction part
(`parseFloat("1.2.3") = 1.2`). -/
def jsParseFloatCap (l : List Char) : ℚ :=
  let ip := l.takeWhile Char.isDigit
  match l.dropWhile Char.isDigit with
  | '.' :: r =>
      let frac := r.takeWhile Char.isDigit
      (digitsVal ip : ℚ) + (digitsVal frac : ℚ) / (10 : ℚ) ^ frac.length
  | _ => (digitsVal ip : ℚ)

/-- JS `toLowerCase` restricted to ASCII (every key of the color dictionary
is ASCII). -/
def toLowerAscii (s : String) : String :=
  String.mk (s.data.map (fun c =>
    if 'A' ≤ c && c ≤ 'Z' then Char.ofNat (c.toNat + 32) else c))

/-- JS `String.prototype.trim`: strip whitespace from both ends. -/
def jsTrim (s : String) : String :=
  String.mk (((s.data.dropWhile Char.isWhitespace).reverse.dropWhile
    Char.isWhitespace).reverse)

/-- Hexadecimal digit predicate (`[a-fA-F0-9]`). -/
def isHexDig (c : Char) : Bool :=
  c.isDigit || ('a' ≤ c && c ≤ 'f') || ('A' ≤ c && c ≤ 'F')

/-- Value of one hexadecimal digit character. -/
def hexVal (c : Char) : ℕ :=
  if c.isDigit then c.toNat - '0'.toNat
  else if 'a' ≤ c && c ≤ 'f' then c.toNat - 'a'.toNat + 10
  else if 'A' ≤ c && c ≤ 'F' then c.toNat - 'A'.toNat + 10
  else 0

/-- Value of a list of hexadecimal digit characters (`parseInt(s, 16)`). -/
def hexDigitsVal (l : List Char) : ℕ :=
  l.foldl (fun a c => 16 * a + hexVal c) 0

/-! ## Regular expressions of the source, as character-list matchers -/

/-- Match a literal character sequence, returning the remainder. -/
def eatLit : List Char → List Char → Option (List Char)
  | [], rest => some rest
  | _, [] => none
  | p :: ps, c :: cs => if p = c then eatLit ps cs else none

/-- The pattern `^rgb\((\d+),\s*(\d+),\s*(\d+)\)$`; returns the three integer
captures. -/
def matchRgb (s : String) : Option (ℕ × ℕ × ℕ) := do
  let r0 ← eatLit ("rgb(".data) s.data
  let (d1, r1) := r0.span Char.isDigit
  if d1.isEmpty then failure
  let r2 ← eatLit [','] r1
  let (d2, r3) := (r2.dropWhile Char.isWhitespace).span Char.isDigit
  if d2.isEmpty then failure
  let r4 ← eatLit [','] r3
  let (d3, r5) := (r4.dropWhile Char.isWhitespace).span Char.isDigit
  if d3.isEmpty then failure
  let r6 ← eatLit [')'] r5
  if r6.isEmpty then pure (digitsVal d1, digitsVal d2, digitsVal d3) else failure

/-- The pattern `^rgba\((\d+),\s*(\d+),\s*(\d+),\s*([\d.]+)\)$`; returns the
three integer captures and the raw fourth capture. -/
def matchRgba (s : String) : Option (ℕ × ℕ × ℕ × List Char) := do
  let r0 ← eatLit ("rgba(".data) s.data
  let (d1, r1) := r0.span Char.isDigit
  if d1.isEmpty then failure
  let r2 ← eatLit [','] r1
  let (d2, r3) := (r2.dropWhile Char.isWhitespace).span Char.isDigit
  if d2.isEmpty then failure
  let r4 ← eatLit [','] r3
  let (d3, r5) := (r4.dropWhile Char.isWhitespace).span Char.isDigit
  if d3.isEmpty then failure
  let r6 ← eatLit [','] r5
  let (d4, r7) := (r6.dropWhile Char.isWhitespace).span (fun c => c.isDigit || c = '.')
  if d4.isEmpty then failure
  let r8 ← eatLit [')'] r7
  if r8.isEmpty then pure (digitsVal d1, digitsVal d2, digitsVal d3, d4) else failure

/-- The pattern `^#([a-fA-F0-9]{3}){1,2}$`: a hash followed by exactly three
or exactly six hexadecimal digits.  Returns the digits. -/
def matchHex (s : String) : Option (List Char) :=
  match s.data with
  | '#' :: rest =>
      if rest.all isHexDig && (rest.length = 3 || rest.length = 6) then some rest
      else none
  | _ => none

/-- The short-hex expansion of the source: a length-3 (or, dead under the
gate above, length-4) digit list is expanded by duplicating each digit. -/
def hexExpand (l : List Char) : List Char :=
  if l.length = 3 then l.flatMap (fun c => [c, c])
  else if l.length = 4 then l.flatMap (fun c => [c, c])
  else l

/-- `parseInt(hex.substring(i, i+2), 16)` on an expanded digit list. -/
def hexByte (l : List Char) (i : ℕ) : ℚ :=
  (hexDigitsVal [l.getD i '0', l.getD (i + 1) '0'] : ℚ)

/-! ## The color resolver of `src/index.ts` (`parseColor`) -/

/-- The named-color dictionary of the source, in source order. -/
def namedColors : List (String × List ℚ) := [
  ("aliceblue", [240, 248, 255, 1]),
  ("antiquewhite", [250, 235, 215, 1]),
  ("aqua", [0, 255, 255, 1]),
  ("aquamarine", [127, 255, 212, 1]),
  ("azure", [240, 255, 255, 1]),
  ("beige", [245, 245, 220, 1]),
  ("bisque", [255, 228, 196, 1]),
  ("black", [0, 0, 0, 1]),
  ("blanchedalmond", [255, 235, 205, 1]),
  ("blue", [0, 0, 255, 1]),
  ("blueviolet", [138, 43, 226, 1]),
  ("brown", [165, 42, 42, 1]),
  ("burlywood", [222, 184, 135, 1]),
  ("cadetblue", [95, 158, 160, 1]),
  ("chartreuse", [127, 255, 0, 1]),
  ("chocolate", [210, 105, 30, 1]),
  ("coral", [255, 127, 80, 1]),
  ("cornflowerblue", [100, 149, 237, 1]),
  ("cornsilk", [255, 248, 220, 1]),
  ("crimson", [220, 20, 60, 1]),
  ("cyan", [0, 255, 255, 1]),
  ("darkblue", [0, 0, 139, 1]),
  ("darkcyan", [0, 139, 139, 1]),
  ("darkgoldenrod", [184, 134, 11, 1]),
  ("darkgray", [169, 169, 169, 1]),
  ("darkgreen", [0, 100, 0, 1]),
  ("darkgrey", [169, 169, 169, 1]),
  ("darkkhaki", [189, 183, 107, 1]),
  ("darkmagenta", [139, 0, 139, 1]),
  ("darkolivegreen", [85, 107, 47, 1]),
  ("darkorange", [255, 140, 0, 1]),
  ("darkorchid", [153, 50, 204, 1]),
  ("darkred", [139, 0, 0, 1]),
  ("darksalmon", [233, 150, 122, 1]),
  ("darkseagreen", [143, 188, 143, 1]),
  ("darkslateblue", [72, 61, 139, 1]),
  ("darkslategray", [47, 79, 79, 1]),
  ("darkslategrey", [47, 79, 79, 1]),
  ("darkturquoise", [0, 206, 209, 1]),
  ("darkviolet", [148, 0, 211, 1]),
  ("deeppink", [255, 20, 147, 1]),
  ("deepskyblue", [0, 191, 255, 1]),
  ("dimgray", [105, 105, 105, 1]),
  ("dimgrey", [105, 105, 105, 1]),
  ("dodgerblue", [30, 144, 255, 1]),
  ("firebrick", [178, 34, 34, 1]),
  ("floralwhite", [255, 250, 240, 1]),
  ("forestgreen", [34, 139, 34, 1]),
  ("fuchsia", [255, 0, 255, 1]),
  ("gainsboro", [220, 220, 220, 1]),
  ("ghostwhite", [248, 248, 255, 1]),
  ("gold", [255, 215, 0, 1]),
  ("goldenrod", [218, 165, 32, 1]),
  ("gray", [128, 128, 128, 1]),
  ("green", [0, 128, 0, 1]),
  ("greenyellow", [173, 255, 47, 1]),
  ("grey", [128, 128, 128, 1]),
  ("honeydew", [240, 255, 240, 1]),
  ("hotpink", [255, 105, 180, 1]),
  ("indianred", [205, 92, 92, 1]),
  ("indigo", [75, 0, 130, 1]),
  ("ivory", [255, 255, 240, 1]),
  ("khaki", [240, 230, 140, 1]),
  ("lavender", [230, 230, 250, 1]),
  ("lavenderblush", [255, 240, 245, 1]),
  ("lawngreen", [124, 252, 0, 1]),
  ("lemonchiffon", [255, 250, 205, 1]),
  ("lightblue", [173, 216, 230, 1]),
  ("lightcoral", [240, 128, 128, 1]),
  ("lightcyan", [224, 255, 255, 1]),
  ("lightgoldenrodyellow", [250, 250, 210, 1]),
  ("lightgray", [211, 211, 211, 1]),
  ("lightgreen", [144, 238, 144, 1]),
  ("lightgrey", [211, 211, 211, 1]),
  ("lightpink", [255, 182, 193, 1]),
  ("lightsalmon", [255, 160, 122, 1]),
  ("lightseagreen", [32, 178, 170, 1]),
  ("lightskyblue", [135, 206, 250, 1]),
  ("lightslategray", [119, 136, 153, 1]),
  ("lightslategrey", [119, 136, 153, 1]),
  ("lightsteelblue", [176, 196, 222, 1]),
  ("lightyellow", [255, 255, 224, 1]),
  ("lime", [0, 255, 0, 1]),
  ("limegreen", [50, 205, 50, 1]),
  ("linen", [250, 240, 230, 1]),
  ("magenta", [255, 0, 255, 1]),
  ("maroon", [128, 0, 0, 1]),
  ("mediumaquamarine", [102, 205, 170, 1]),
  ("mediumblue", [0, 0, 205, 1]),
  ("mediumorchid", [186, 85, 211, 1]),
  ("mediumpurple", [147, 112, 219, 1]),
  ("mediumseagreen", [60, 179, 113, 1]),
  ("mediumslateblue", [123, 104, 238, 1]),
  ("mediumspringgreen", [0, 250, 154, 1]),
  ("mediumturquoise", [72, 209, 204, 1]),
  ("mediumvioletred", [199, 21, 133, 1]),
  ("midnightblue", [25, 25, 112, 1]),
  ("mintcream", [245, 255, 250, 1]),
  ("mistyrose", [255, 228, 225, 1]),
  ("moccasin", [255, 228, 181, 1]),
  ("navajowhite", [255, 222, 173, 1]),
  ("navy", [0, 0, 128, 1]),
  ("oldlace", [253, 245, 230, 1]),
  ("olive", [128, 128, 0, 1]),
  ("olivedrab", [107, 142, 35, 1]),
  ("orange", [255, 165, 0, 1]),
  ("orangered", [255, 69, 0, 1]),
  ("orchid", [218, 112, 214, 1]),
  ("palegoldenrod", [238, 232, 170, 1]),
  ("palegreen", [152, 251, 152, 1]),
  ("paleturquoise", [175, 238, 238, 1]),
  ("palevioletred", [219, 112, 147, 1]),
  ("papayawhip", [255, 239, 213, 1]),
  ("peachpuff", [255, 218, 185, 1]),
  ("peru", [205, 133, 63, 1]),
  ("pink", [255, 192, 203, 1]),
  ("plum", [221, 160, 221, 1]),
  ("powderblue", [176, 224, 230, 1]),
  ("purple", [128, 0, 128, 1]),
  ("rebeccapurple", [102, 51, 153, 1]),
  ("red", [255, 0, 0, 1]),
  ("rosybrown", [188, 143, 143, 1]),
  ("royalblue", [65, 105, 225, 1]),
  ("saddlebrown", [139, 69, 19, 1]),
  ("salmon", [250, 128, 114, 1]),
  ("sandybrown", [244, 164, 96, 1]),
  ("seagreen", [46, 139, 87, 1]),
  ("seashell", [255, 245, 238, 1]),
  ("sienna", [160, 82, 45, 1]),
  ("silver", [192, 192, 192, 1]),
  ("skyblue", [135, 206, 235, 1]),
  ("slateblue", [106, 90, 205, 1]),
  ("slategray", [112, 128, 144, 1]),
  ("slategrey", [112, 128, 144, 1]),
  ("snow", [255, 250, 250, 1]),
  ("springgreen", [0, 255, 127, 1]),
  ("steelblue", [70, 130, 180, 1]),
  ("tan", [210, 180, 140, 1]),
  ("teal", [0, 128, 128, 1]),
  ("thistle", [216, 191, 216, 1]),
  ("tomato", [255, 99, 71, 1]),
  ("turquoise", [64, 224, 208, 1]),
  ("violet", [238, 130, 238, 1]),
  ("wheat", [245, 222, 179, 1]),
  ("white", [255, 255, 255, 1]),
  ("whitesmoke", [245, 245, 245, 1]),
  ("yellow", [255, 255, 0, 1]),
  ("yellowgreen", [154, 205, 50, 1])]

/-- Dictionary lookup `colorNames[s]`. -/
def lookupNamed (s : String) : Option (List ℚ) :=
  (namedColors.find? (fun e => e.1 = s)).map (fun e => e.2)

/-- Modelled from the environment: the canvas probe of `parseColor`
(`ctx.fillRect(0,0,1,1); pixel = ctx.getImageData(...).data;
if (pixel[3] === 0) return [0,0,0,0]`).  Under the identity normalization
oracle, painting the input color yields a pixel with zero alpha coverage
exactly when the input is an explicit `rgba(...)` whose alpha value is 0.
Other fully-transparent spellings (for example the `transparent` keyword)
are normalized by a real canvas before this probe and are outside the
modelled domain. -/
def rendersTransparent (s : String) : Bool :=
  match matchRgba s with
  | some (_, _, _, d4) => jsParseFloatCap d4 = 0
  | none => false

/-- The color resolver `parseColor` of `src/index.ts`, with the canvas
normalization modelled as the identity.  Returns the RGBA quadruple as the
source's 4-element array, or `none` for "not a color".

Source cascade: transparent-pixel probe, then the `rgb(...)` pattern (alpha
`parseInt('1') = 1`), then the `rgba(...)` pattern (alpha
`parseInt(capture)`), then the hex pattern (3 or 6 digits; expansion and the
length-8 alpha branch are mirrored even though the gate makes the length-4
and length-8 paths unreachable), then the named-color dictionary (looked up
at the original key, returned at the lowercased key). -/
def parseColor (s : String) : Option (List ℚ) :=
  if rendersTransparent s then some [0, 0, 0, 0]
  else match matchRgb s with
  | some (r, g, b) => some [(r : ℚ), (g : ℚ), (b : ℚ), 1]
  | none =>
    match matchRgba s with
    | some (r, g, b, d4) => some [(r : ℚ), (g : ℚ), (b : ℚ), jsParseIntCap d4]
    | none =>
      match matchHex s with
      | some hx =>
          let hex := hexExpand hx
          some [hexByte hex 0, hexByte hex 2, hexByte hex 4,
                if hex.length = 8 then hexByte hex 6 / 255 else 1]
      | none =>
          match lookupNamed s with
          | some _ => lookupNamed (toLowerAscii s)
          | none => none

/-! ## The value classifier of `animate` -/

/-- The pattern `^-?\d+(\.\d+)?([a-z%]*)?$` (note: the trailing class is
lowercase only; there is no `i` flag on this one). -/
def numericPat (s : String) : Bool :=
  let l := s.data
  let l := match l with
    | '-' :: r => r
    | _ => l
  let (d1, r1) := l.span Char.isDigit
  if d1.isEmpty then false
  else
    let r2 := match r1 with
      | '.' :: rf =>
          let (df, rr) := rf.span Char.isDigit
          if df.isEmpty then none else some rr
      | _ => some r1
    match r2 with
    | none => false
    | some rest => rest.all (fun c => ('a' ≤ c && c ≤ 'z') || c = '%')

/-- The unit capture `computed.match(/[a-z%]+$/i)?.[0] || ''`: the maximal
trailing run of letters (either case, the pattern has the `i` flag) or
percent signs. -/
def unitOf (s : String) : String :=
  String.mk ((s.data.reverse.takeWhile
    (fun c => ('a' ≤ c && c ≤ 'z') || ('A' ≤ c && c ≤ 'Z') || c = '%')).reverse)

/-- JS `parseFloat` on a full style string: optional sign, digits, optional
fraction; any trailing unit is ignored.  Used by the source only on strings
that passed `numericPat`. -/
def parseFloatQ (s : String) : ℚ :=
  match s.data with
  | '-' :: r => -(jsParseFloatCap r)
  | '+' :: r => jsParseFloatCap r
  | l => jsParseFloatCap l

/-- A per-property interpolation plan, as materialized by the `animate`
thunk: `startStyles[prop]`/`endStyles[prop]` hold either two RGBA arrays
(color), two numbers plus a `units[prop]` entry (numeric), or `null` plus
the target string (the snap-at-completion case, the spec's OpaquePlan). -/
inductive Plan
  | colorP (startRGBA endRGBA : List ℚ)
  | numericP (startV endV : ℚ) (unit : String)
  | snap (endV : String)
  deriving DecidableEq

/-- The classification performed in the materialization loop of `animate`
for one property: `computed` is the current computed style value, `targetVal`
the (already trimmed) destination value. -/
def classify (computed targetVal : String) : Plan :=
  let isNumeric := numericPat targetVal
  match parseColor targetVal, parseColor computed with
  | some targetColor, some computedColor => .colorP computedColor targetColor
  | _, _ =>
      if isNumeric && numericPat computed then
        .numericP (parseFloatQ computed) (parseFloatQ targetVal) (unitOf computed)
      else .snap targetVal

/-! ## The interpolator (body of the per-property loop in `step`) -/

/-- The structured form of the style string written by one step:
`colorStr r g b a` stands for the string `rgb(r, g, b, a)` (alpha always
included), `numStr v u` for the number `v` concatenated with the unit `u`,
`rawStr s` for the verbatim string `s`. -/
inductive StyleVal
  | colorStr (r g b : ℤ) (a : ℚ)
  | numStr (v : ℚ) (unit : String)
  | rawStr (s : String)
  deriving DecidableEq

/-- One property's evaluation inside `step`: `t` is the raw progress, `eased`
the eased progress.  Returns `none` when the property is not written this
step (the snap case before raw completion). -/
def evalPlan (pl : Plan) (t eased : ℚ) : Option StyleVal :=
  match pl with
  | .colorP st en =>
      some (.colorStr
        (jsRound (st.getD 0 0 + (en.getD 0 0 - st.getD 0 0) * eased))
        (jsRound (st.getD 1 0 + (en.getD 1 0 - st.getD 1 0) * eased))
        (jsRound (st.getD 2 0 + (en.getD 2 0 - st.getD 2 0) * eased))
        (st.getD 3 0 + (en.getD 3 0 - st.getD 3 0) * eased))
  | .numericP a b u => some (.numStr (a + (b - a) * eased) u)
  | .snap v => if t = 1 then some (.rawStr v) else none

/-! ## Rendering a written value back to a style string

The machine stores element styles as strings (as the DOM does).  `qToDec`
renders a rational in plain decimal notation; it agrees with JS
number-to-string conversion on the terminating decimals the claims use, and
no claim depends on its value elsewhere. -/

/-- Decimal digits of a fraction in `[0,1)`, up to the given fuel. -/
def fracDigits : ℕ → ℚ → String
  | 0, _ => ""
  | n + 1, q =>
      if q = 0 then ""
      else
        let d := (⌊q * 10⌋).toNat
        toString d ++ fracDigits n (q * 10 - (d : ℚ))

/-- Decimal rendering of a nonnegative rational. -/
def qToDecNN (q : ℚ) : String :=
  toString ⌊q⌋ ++ (if q - (⌊q⌋ : ℚ) = 0 then "" else "." ++ fracDigits 20 (q - (⌊q⌋ : ℚ)))

/-- Decimal rendering of a rational. -/
def qToDec (q : ℚ) : String :=
  if q < 0 then "-" ++ qToDecNN (-q) else qToDecNN q

/-- The style string written by `step` for one evaluated property:
`rgb(${r}, ${g}, ${b}, ${a})` in the color case, `value + unit` in the
numeric case, the end value verbatim in the snap case. -/
def renderStyle : StyleVal → String
  | .colorStr r g b a =>
      "rgb(" ++ toString r ++ ", " ++ toString g ++ ", " ++ toString b ++ ", "
        ++ qToDec a ++ ")"
  | .numStr v u => qToDec v ++ u
  | .rawStr s => s

/-! ## The per-node queue and the frame scheduler

State machine model of `animate`/`step`.  Per element the source keeps
`el.__TSQuery_animate_queue__`, an array of thunks whose head is the running
animation; a running head has materialized `startStyles`/`endStyles`/`units`
(here: `Closure.plans`) plus `startTime`, and lives in the
`requestAnimationFrame` registry between frames (here: `Sys.raf`).  One
`frameStep` delivers one registered callback, with the frame timestamp; a
real frame that delivers the callbacks of several nodes is a sequence of
`frameStep`s at the same timestamp.  Raw progress
`Math.min(1, (now - startTime)/duration)` is `rawT`; for duration 0 JS
division gives `+Infinity` for a positive elapsed time, so the minimum is 1,
which is how the `dur = 0` branch below reads (elapsed times that are not
positive with a zero duration are outside the modelled domain). -/

/-- Raw progress of one step. -/
def rawT (elapsed dur : ℚ) : ℚ :=
  if dur = 0 then 1 else min 1 (elapsed / dur)

/-- One queued animation request (one pushed thunk, before activation). -/
structure Entry where
  id : ℕ
  props : List (String × String)
  dur : ℚ
  easing : ℚ → ℚ
  hasCb : Bool

/-- The closure state of an activated head: the materialized plans and the
captured start timestamp, as registered with `requestAnimationFrame`. -/
structure Closure where
  id : ℕ
  startTime : ℚ
  dur : ℚ
  easing : ℚ → ℚ
  plans : List (String × Plan)
  hasCb : Bool

/-- Per-element state: the style map (also serving as the computed style the
materialization reads) and the animation queue. -/
structure NodeSt where
  style : List (String × String)
  queue : List Entry

/-- Observable events of a run.  `enq` records an `animate` call reaching a
node (with the presence of a completion callback), `act` the promotion of an
entry to the running head, `step` one evaluation of the drive loop at raw
progress `t`, `write` one style write, `cb` the invocation of a completion
callback, `done` the removal of a completed entry. -/
inductive Ev
  | enq (n i : ℕ) (cb : Bool)
  | act (n i : ℕ)
  | step (n i : ℕ) (t : ℚ)
  | write (n : ℕ) (p : String) (v : StyleVal)
  | cb (n i : ℕ)
  | done (n i : ℕ)
  deriving DecidableEq

/-- Whole-system state: per-node states, the `requestAnimationFrame`
registry, the clock, the id supply and the event trace (oldest first). -/
structure Sys where
  nodes : ℕ → NodeSt
  raf : List (ℕ × Closure)
  now : ℚ
  nextId : ℕ
  trace : List Ev

/-- Initial state: given styles, no queues, nothing scheduled. -/
def Sys.init (styles : ℕ → List (String × String)) : Sys :=
  { nodes := fun n => { style := styles n, queue := [] },
    raf := [], now := 0, nextId := 0, trace := [] }

/-- Point update of the node map. -/
def updNodes (f : ℕ → NodeSt) (n : ℕ) (v : NodeSt) : ℕ → NodeSt :=
  fun m => if m = n then v else f m

/-- `getComputedStyle(el)[prop]` against the model's style map: the first
binding of the property, or the empty string. -/
def styleGet : List (String × String) → String → String
  | [], _ => ""
  | e :: rest, p => if e.1 = p then e.2 else styleGet rest p

/-- `el.style[prop] = v`: update the property's binding in place, or append
a new binding. -/
def styleSet : List (String × String) → String → String → List (String × String)
  | [], p, v => [(p, v)]
  | e :: rest, p, v => if e.1 = p then (p, v) :: rest else e :: styleSet rest p v

/-- The materialization loop at the top of a thunk: for each requested
property, read the computed style, trim the target, classify. -/
def materialize (style : List (String × String)) (props : List (String × String)) :
    List (String × Plan) :=
  props.map (fun pv => (pv.1, classify (styleGet style pv.1) (jsTrim pv.2)))

/-- The writes performed by one `step` evaluation: each plan that evaluates
(snap plans evaluate only at raw progress 1). -/
def writesOf (plans : List (String × Plan)) (t eased : ℚ) : List (String × StyleVal) :=
  plans.filterMap (fun pp => (evalPlan pp.2 t eased).map (fun v => (pp.1, v)))

/-- Apply the writes of one step to a style map, in loop order. -/
def applyWrites (st : List (String × String)) (ws : List (String × StyleVal)) :
    List (String × String) :=
  ws.foldl (fun acc w => styleSet acc w.1 (renderStyle w.2)) st

/-- The `write` events of one step. -/
def wEvs (n : ℕ) (ws : List (String × StyleVal)) : List Ev :=
  ws.map (fun w => Ev.write n w.1 w.2)

/-- The closure materialized for entry `e` of node `n` at the current state:
the thunk body's `startStyles`/`endStyles`/`units` computation plus the
captured `performance.now()`. -/
def nextClosure (s : Sys) (n : ℕ) (e : Entry) : Closure :=
  { id := e.id, startTime := s.now, dur := e.dur, easing := e.easing,
    plans := materialize (s.nodes n).style e.props, hasCb := e.hasCb }

/-- Activation of a queue head `e` on node `n`: run the thunk body —
materialize the plans against the current computed style, capture
`performance.now()` as the start timestamp, and register the drive loop
with `requestAnimationFrame`. -/
def activateEntry (s : Sys) (n : ℕ) (e : Entry) : Sys :=
  { s with raf := s.raf ++ [(n, nextClosure s n e)],
           trace := s.trace ++ [Ev.act n e.id] }

/-- The raw progress a delivered callback for closure `c` computes at the
current state. -/
def stepT (s : Sys) (c : Closure) : ℚ := rawT (s.now - c.startTime) c.dur

/-- The writes a delivered callback for closure `c` performs at the current
state. -/
def stepWrites (s : Sys) (c : Closure) : List (String × StyleVal) :=
  writesOf c.plans (stepT s c) (c.easing (stepT s c))

/-- One delivered frame callback for node `n`'s registered closure `c`
(the body of `step`): compute raw and eased progress, perform the writes;
below raw progress 1 re-register, otherwise run the completion callback,
shift the queue and synchronously activate the new head if any. -/
def runStep (s : Sys) (n : ℕ) (c : Closure) : Sys :=
  let t := stepT s c
  let ws := stepWrites s c
  let nd := s.nodes n
  let style2 := applyWrites nd.style ws
  if t < 1 then
    { s with nodes := updNodes s.nodes n { nd with style := style2 },
             raf := s.raf ++ [(n, c)],
             trace := s.trace ++ Ev.step n c.id t :: wEvs n ws }
  else
    let s2 : Sys :=
      { s with nodes := updNodes s.nodes n { style := style2, queue := nd.queue.tail },
               trace := s.trace ++ Ev.step n c.id t :: wEvs n ws
                          ++ (if c.hasCb then [Ev.cb n c.id] else [])
                          ++ [Ev.done n c.id] }
    match nd.queue.tail with
    | [] => s2
    | e :: _ => activateEntry s2 n e

/-- Remove the first closure registered for node `n` from the registry. -/
def pullClosure : List (ℕ × Closure) → ℕ → Option (Closure × List (ℕ × Closure))
  | [], _ => none
  | (m, c) :: r, n =>
      if m = n then some (c, r)
      else (pullClosure r n).map (fun pr => (pr.1, (m, c) :: pr.2))

/-- One `animate` call reaching node `n` at time `tA`: push the request on
the node's queue; if the queue length is now 1 the pushed thunk is invoked
synchronously (`if (queue.length === 1) queue[0]()`). -/
def animate (s : Sys) (n : ℕ) (props : List (String × String)) (dur : ℚ)
    (easing : ℚ → ℚ) (hasCb : Bool) (tA : ℚ) : Sys :=
  let e : Entry := { id := s.nextId, props := props, dur := dur,
                     easing := easing, hasCb := hasCb }
  let nd := s.nodes n
  let s1 : Sys :=
    { s with now := tA, nextId := s.nextId + 1,
             nodes := updNodes s.nodes n { nd with queue := nd.queue ++ [e] },
             trace := s.trace ++ [Ev.enq n e.id hasCb] }
  if (nd.queue ++ [e]).length = 1 then activateEntry s1 n e else s1

/-- Delivery of one registered frame callback for node `n` at frame
timestamp `tF`: the callback leaves the registry and runs. -/
def frameStep (s : Sys) (n : ℕ) (tF : ℚ) : Sys :=
  let s1 : Sys := { s with now := tF }
  match pullClosure s.raf n with
  | none => s1
  | some (c, rest) => runStep { s1 with raf := rest } n c

/-- States reachable from an initial state by `animate` calls and frame
deliveries, with a monotone clock. -/
inductive Reachable : Sys → Prop
  | init (styles : ℕ → List (String × String)) : Reachable (Sys.init styles)
  | animate {s : Sys} (h : Reachable s) (n : ℕ) (props : List (String × String))
      (dur : ℚ) (easing : ℚ → ℚ) (hasCb : Bool) (tA : ℚ) (ht : s.now ≤ tA) :
      Reachable (animate s n props dur easing hasCb tA)
  | frame {s : Sys} (h : Reachable s) (n : ℕ) (tF : ℚ) (ht : s.now ≤ tF) :
      Reachable (frameStep s n tF)

/-- The request id an event is about, if any. -/
def ridOf : Ev → Option ℕ
  | .enq _ i _ => some i
  | .act _ i => some i
  | .step _ i _ => some i
  | .write _ _ _ => none
  | .cb _ i => some i
  | .done _ i => some i

/-- The inductive invariant of the machine.  Its fields formalize, per node:
the `requestAnimationFrame` registry holds at most one closure per node
(`rafNodup`), which drives exactly the queue head with matching parameters
(`rafHead`); queue entries are in strictly increasing id order — that is,
FIFO enqueue order (`queueSorted`, `queueLt`); each entry was announced by
an `enq` event whose callback flag is the entry's (`queueEnq`, `enqUnique`);
every event's id is in the already-issued range (`evLt`); an enqueued
request is either still queued or was completed with a `done` event
(`enqResolved`, `doneGone`); a completed request with a callback fired it
(`doneCb`, `cbDone`), at most once (`cbOnce`); and every `step` (resp.
`act`) event of a request is preceded by the `cb` (resp. `done`) event of
each earlier request of the same node (`ordStep`, `ordAct`). -/
structure Inv (s : Sys) : Prop where
  rafNodup : s.raf.Pairwise (fun a b => a.1 ≠ b.1)
  rafHead : ∀ n c, (n, c) ∈ s.raf → ∃ e tl, (s.nodes n).queue = e :: tl ∧ c.id = e.id
      ∧ c.dur = e.dur ∧ c.hasCb = e.hasCb ∧ c.plans.map Prod.fst = e.props.map Prod.fst
  queueSorted : ∀ n, (s.nodes n).queue.Pairwise (fun a b => a.id < b.id)
  queueLt : ∀ n e, e ∈ (s.nodes n).queue → e.id < s.nextId
  queueEnq : ∀ n e, e ∈ (s.nodes n).queue → Ev.enq n e.id e.hasCb ∈ s.trace
  evLt : ∀ ev ∈ s.trace, ∀ i, ridOf ev = some i → i < s.nextId
  enqUnique : ∀ n i f g, Ev.enq n i f ∈ s.trace → Ev.enq n i g ∈ s.trace → f = g
  enqResolved : ∀ n i f, Ev.enq n i f ∈ s.trace →
      (∃ e, e ∈ (s.nodes n).queue ∧ e.id = i) ∨ Ev.done n i ∈ s.trace
  doneGone : ∀ n i, Ev.done n i ∈ s.trace → ∀ e, e ∈ (s.nodes n).queue → e.id ≠ i
  doneCb : ∀ n i, Ev.done n i ∈ s.trace → Ev.enq n i true ∈ s.trace → Ev.cb n i ∈ s.trace
  cbDone : ∀ n i, Ev.cb n i ∈ s.trace → Ev.done n i ∈ s.trace
  cbOnce : ∀ n i, s.trace.count (Ev.cb n i) ≤ 1
  ordStep : ∀ n i j t, i < j → Ev.enq n i true ∈ s.trace →
      ∀ tr1 tr2, s.trace = tr1 ++ Ev.step n j t :: tr2 → Ev.cb n i ∈ tr1
  ordAct : ∀ n i j f, i < j → Ev.enq n i f ∈ s.trace →
      ∀ tr1 tr2, s.trace = tr1 ++ Ev.act n j :: tr2 → Ev.done n i ∈ tr1

/-! ## Concrete runs used by the witnesses

Small closed runs of the machine: two zero-property requests on one node
(`wS1`–`wS4`), one numeric-property request (`w8S1`/`w8S2`), and one
negative-duration request (`w9S1`/`w9S2`). -/

/-- Initial styles of the two-request run: no inline styles anywhere. -/
def wStyles : ℕ → List (String × String) := fun _ => []

/-- Initial state of the two-request run. -/
def wS0 : Sys := Sys.init wStyles

/-- After the first `animate` call (empty queue: synchronous activation). -/
def wS1 : Sys := animate wS0 0 [] 100 id true 0

/-- After the second `animate` call on the same node (non-empty queue: the
request stays pending). -/
def wS2 : Sys := animate wS1 0 [] 100 id false 0

/-- After the frame at 100: the first request completes, the second is
promoted. -/
def wS3 : Sys := frameStep wS2 0 100

/-- After the frame at 116: the second request takes its first step. -/
def wS4 : Sys := frameStep wS3 0 116

/-- The registered closure of the first request. -/
def cW1 : Closure := ⟨0, 0, 100, id, [], true⟩

/-- The registered closure of the second request, activated at time 100. -/
def cW2 : Closure := ⟨1, 100, 100, id, [], false⟩

/-- Initial styles of the numeric run: every node carries `left: 0px`. -/
def w8Styles : ℕ → List (String × String) := fun _ => [("left", "0px")]

/-- Initial state of the numeric run. -/
def w8S0 : Sys := Sys.init w8Styles

/-- After `animate({ left: "100px" }, 400)` on the empty queue. -/
def w8S1 : Sys := animate w8S0 0 [("left", "100px")] 400 id false 0

/-- After the first frame of the numeric run, at 16. -/
def w8S2 : Sys := frameStep w8S1 0 16

/-- The registered closure of the numeric request. -/
def cW8 : Closure := ⟨0, 0, 400, id, [("left", Plan.numericP 0 100 "px")], false⟩

/-- Initial state of the negative-duration run. -/
def w9S0 : Sys := Sys.init wStyles

/-- After `animate({}, -100)` with a completion callback. -/
def w9S1 : Sys := animate w9S0 0 [] (-100) id true 0

/-- After the first frame of the negative-duration run, at 16. -/
def w9S2 : Sys := frameStep w9S1 0 16

/-- The registered closure of the negative-duration request. -/
def cW9 : Closure := ⟨0, 0, -100, id, [], true⟩

/-- A zero-duration closure. -/
def cWZ : Closure := ⟨0, 0, 0, id, [], true⟩

end TSQ

namespace P3

/-!
The earlier variant of the file (`src/unnamed/part_003`): its `parseColor`
returns plain RGB triples (3-element arrays, no alpha anywhere) and it is
the version containing the OKLCH pipeline.  The transcendental primitives
of JS `Math` used by that pipeline (`cos`, `sin`, and `x ** (1/2.4)`) are
taken as parameters (`MathOps`), so every definition stays executable; the
pipeline's own arithmetic (matrices, cubing, the gamma branch structure) is
exact. -/

/-- The transcendental primitives the pipeline consumes: `Math.cos`,
`Math.sin`, the power `x ** (1/2.4)` for nonnegative `x`, and `Math.PI`. -/
structure MathOps where
  cos : ℚ → ℚ
  sin : ℚ → ℚ
  rpow124 : ℚ → ℚ
  pi : ℚ

/-- `multiplyMatrices` of the source: a flat 3×3 matrix times a vector. -/
def multiplyMatrices (A B : List ℚ) : List ℚ :=
  [A.getD 0 0 * B.getD 0 0 + A.getD 1 0 * B.getD 1 0 + A.getD 2 0 * B.getD 2 0,
   A.getD 3 0 * B.getD 0 0 + A.getD 4 0 * B.getD 1 0 + A.getD 5 0 * B.getD 2 0,
   A.getD 6 0 * B.getD 0 0 + A.getD 7 0 * B.getD 1 0 + A.getD 8 0 * B.getD 2 0]

/-- `oklch2oklab`: `[l, isNaN(h) ? 0 : c*cos(h*PI/180), isNaN(h) ? 0 :
c*sin(h*PI/180)]`.  A `NaN` hue is modelled as `none`. -/
def oklch2oklab (m : MathOps) (l c : ℚ) (h : Option ℚ) : List ℚ :=
  [l,
   match h with
   | none => 0
   | some hv => c * m.cos (hv * m.pi / 180),
   match h with
   | none => 0
   | some hv => c * m.sin (hv * m.pi / 180)]

/-- The per-channel gamma encoding of `srgbLinear2rgb`:
`Math.abs(c) > 0.0031308 ? (c < 0 ? -1 : 1) * (1.055 * (Math.abs(c) **
(1/2.4)) - 0.055) : 12.92 * c`. -/
def gammaEncode (m : MathOps) (c : ℚ) : ℚ :=
  if |c| > 0.0031308 then (if c < 0 then -1 else 1) * (1.055 * m.rpow124 |c| - 0.055)
  else 12.92 * c

/-- `srgbLinear2rgb`. -/
def srgbLinear2rgb (m : MathOps) (rgb : List ℚ) : List ℚ :=
  rgb.map (gammaEncode m)

/-- `oklab2xyz`: first fixed matrix to LMS-prime, cube componentwise, second
fixed matrix to XYZ. -/
def oklab2xyz (lab : List ℚ) : List ℚ :=
  let LMSg := multiplyMatrices
    [1, 0.3963377773761749, 0.2158037573099136,
     1, -0.1055613458156586, -0.0638541728258133,
     1, -0.0894841775298119, -1.2914855480194092] lab
  let LMS := LMSg.map (fun v => v ^ 3)
  multiplyMatrices
    [1.2268798758459243, -0.5578149944602171, 0.2813910456659647,
     -0.0405757452148008, 1.1122868032803170, -0.0717110580655164,
     -0.0763729366746601, -0.4214933324022432, 1.5869240198367816] LMS

/-- `xyz2rgbLinear`: third fixed matrix (sRGB primaries). -/
def xyz2rgbLinear (xyz : List ℚ) : List ℚ :=
  multiplyMatrices
    [3.2409699419045226, -1.537383177570094, -0.4986107602930034,
     -0.9692436362808796, 1.8759675015077202, 0.04155505740717559,
     0.05563007969699366, -0.20397695888897652, 1.0569715142428786] xyz

/-- `oklch2rgb`: the four-stage pipeline of the source. -/
def oklch2rgb (m : MathOps) (l c : ℚ) (h : Option ℚ) : List ℚ :=
  srgbLinear2rgb m (xyz2rgbLinear (oklab2xyz (oklch2oklab m l c h)))

/-- The pattern `(\d+\.\d+)` (digits, a dot, digits), returning the two
digit captures and the remainder. -/
def matchFloat1 (l : List Char) : Option ((List Char × List Char) × List Char) :=
  let (d1, r1) := l.span Char.isDigit
  if d1.isEmpty then none
  else match r1 with
    | '.' :: r2 =>
        let (d2, r3) := r2.span Char.isDigit
        if d2.isEmpty then none
        else some ((d1, d2), r3)
    | _ => none

/-- `parseFloat` on a `\d+\.\d+` capture given as its two digit groups. -/
def floatCapVal (p : List Char × List Char) : ℚ :=
  (TSQ.digitsVal p.1 : ℚ) + (TSQ.digitsVal p.2 : ℚ) / (10 : ℚ) ^ p.2.length

/-- The pattern `^oklch\((\d+\.\d+)\s+(\d+\.\d+)\s+(\d+\.\d+)\)$`, returning
the three captures. -/
def matchOklch (s : String) :
    Option ((List Char × List Char) × (List Char × List Char) × (List Char × List Char)) := do
  let r0 ← TSQ.eatLit ("oklch(".data) s.data
  let (lv, r1) ← matchFloat1 r0
  let sp1 := r1.takeWhile Char.isWhitespace
  if sp1.isEmpty then failure
  let (cv, r2) ← matchFloat1 (r1.dropWhile Char.isWhitespace)
  let sp2 := r2.takeWhile Char.isWhitespace
  if sp2.isEmpty then failure
  let (hv, r3) ← matchFloat1 (r2.dropWhile Char.isWhitespace)
  let r4 ← TSQ.eatLit [')'] r3
  if r4.isEmpty then pure (lv, cv, hv) else failure

/-- The named-color dictionary of the earlier variant: three entries, RGB
triples. -/
def namedColors3 : List (String × List ℚ) :=
  [("red", [255, 0, 0]), ("green", [0, 255, 0]), ("blue", [0, 0, 255])]

/-- The color resolver of `src/unnamed/part_003`, canvas normalization
modelled as the identity (that variant has no pixel probe).  Returns RGB
triples: the `rgba` branch drops its alpha capture, the hex branch handles
only 3- or 6-digit forms (with no alpha), the `oklch` branch returns the
raw pipeline output, and the dictionary is looked up once, at the original
key. -/
def parseColor (m : MathOps) (s : String) : Option (List ℚ) :=
  match TSQ.matchRgb s with
  | some (r, g, b) => some [(r : ℚ), (g : ℚ), (b : ℚ)]
  | none =>
    match TSQ.matchRgba s with
    | some (r, g, b, _) => some [(r : ℚ), (g : ℚ), (b : ℚ)]
    | none =>
      match TSQ.matchHex s with
      | some hx =>
          let hex := if hx.length = 3 then hx.flatMap (fun c => [c, c]) else hx
          some [TSQ.hexByte hex 0, TSQ.hexByte hex 2, TSQ.hexByte hex 4]
      | none =>
        match matchOklch s with
        | some (lv, cv, hv) =>
            some (oklch2rgb m (floatCapVal lv) (floatCapVal cv) (some (floatCapVal hv)))
        | none =>
          match (namedColors3.find? (fun e => e.1 = s)).map (fun e => e.2) with
          | some v => some v
          | none => none

end P3

/-- A concrete instantiation of the transcendental oracles used to evaluate
the OKLCH pipeline at closed inputs.  At hue 0 — the only hue the closed
evaluations below use — the stand-ins agree with the true cosine and sine
(`cos 0 = 1`, `sin 0 = 0`), and the facts proved about the pipeline's output
at those inputs (its arity, and the sign of a channel whose gamma branch is
`±(1.055·p − 0.055)` with `p ≥ 0.0905` for the true power) do not depend on
the value taken for the power stand-in. -/
def mConst1 : P3.MathOps :=
  { cos := fun _ => 1, sin := fun _ => 0, rpow124 := fun _ => 1,
    pi := 3.141592653589793 }

/-! # Claim theorems -/

/-! ## C3: the interpolator -/

/-- C3: for every property plan and eased progress, the interpolator yields:
for a ColorPlan the per-channel blend `start + (end - start)·eased` with R, G,
B rounded to the nearest integer and alpha unrounded, emitted as the
`rgb(r, g, b, a)` string with the alpha component always present
(`StyleVal.colorStr`); for a NumericPlan the unrounded blend concatenated
with the stored unit; and for an OpaquePlan the destination string applied
verbatim exactly when the raw progress `t` equals 1 — never at merely eased
progress 1. -/
theorem interpolator_formulas (st en : List ℚ) (a b : ℚ) (u v : String) (t eased : ℚ) :
    (TSQ.evalPlan (.colorP st en) t eased = some (.colorStr
      (TSQ.jsRound (st.getD 0 0 + (en.getD 0 0 - st.getD 0 0) * eased))
      (TSQ.jsRound (st.getD 1 0 + (en.getD 1 0 - st.getD 1 0) * eased))
      (TSQ.jsRound (st.getD 2 0 + (en.getD 2 0 - st.getD 2 0) * eased))
      (st.getD 3 0 + (en.getD 3 0 - st.getD 3 0) * eased))) ∧
    (TSQ.evalPlan (.numericP a b u) t eased = some (.numStr (a + (b - a) * eased) u)) ∧
    (t = 1 → TSQ.evalPlan (.snap v) t eased = some (.rawStr v)) ∧
    (t ≠ 1 → TSQ.evalPlan (.snap v) t eased = none) := by
  refine ⟨rfl, rfl, ?_, ?_⟩ <;> intro h <;> simp [TSQ.evalPlan, h]

/-- Witness for C3: red to blue at eased progress 1/2 gives
`rgb(128, 0, 128, 1)` (the specification's own example), and an opaque value
is not written at eased progress 1 while raw progress is 9/10. -/
theorem interpolator_formulas_witness :
    TSQ.evalPlan (.colorP [255, 0, 0, 1] [0, 0, 255, 1]) (9/10) (1/2)
      = some (.colorStr 128 0 128 1)
    ∧ TSQ.evalPlan (.snap "auto") (9/10) 1 = none :=
  ⟨((interpolator_formulas [255, 0, 0, 1] [0, 0, 255, 1] 0 0 "" "auto" (9/10) (1/2)).1).trans
      (by norm_num [TSQ.jsRound]),
   (interpolator_formulas [255, 0, 0, 1] [0, 0, 255, 1] 0 0 "" "auto" (9/10) 1).2.2.2
      (by norm_num)⟩

/-! ## C4: the value classifier -/

/-- C4: classification attempts the color resolver on both values first and
emits a ColorPlan exactly when both resolve; otherwise, when both values
match the signed-decimal-optionally-unit pattern, it emits a NumericPlan
whose unit comes from the current value's match (not the destination's);
otherwise it emits the snap plan carrying the destination string. -/
theorem classifier_order (computed target : String) :
    (∀ tc cc, TSQ.parseColor target = some tc → TSQ.parseColor computed = some cc →
        TSQ.classify computed target = .colorP cc tc) ∧
    ((TSQ.parseColor target = none ∨ TSQ.parseColor computed = none) →
      TSQ.numericPat target = true → TSQ.numericPat computed = true →
        TSQ.classify computed target =
          .numericP (TSQ.parseFloatQ computed) (TSQ.parseFloatQ target) (TSQ.unitOf computed)) ∧
    ((TSQ.parseColor target = none ∨ TSQ.parseColor computed = none) →
      ¬(TSQ.numericPat target = true ∧ TSQ.numericPat computed = true) →
        TSQ.classify computed target = .snap target) := by
  refine ⟨?_, ?_, ?_⟩
  · intro tc cc ht hc
    simp [TSQ.classify, ht, hc]
  · intro hor hnt hnc
    rcases hor with h | h
    · cases hc : TSQ.parseColor computed <;>
        simp [TSQ.classify, h, hc, hnt, hnc]
    · cases ht : TSQ.parseColor target <;>
        simp [TSQ.classify, h, ht, hnt, hnc]
  · intro hor hn
    have hb : (TSQ.numericPat target && TSQ.numericPat computed) = false := by
      cases h1 : TSQ.numericPat target <;> cases h2 : TSQ.numericPat computed <;> simp_all
    rcases hor with h | h
    · cases hc : TSQ.parseColor computed <;> simp [TSQ.classify, h, hc, hb]
    · cases ht : TSQ.parseColor target <;> simp [TSQ.classify, h, ht, hb]

/-- Witness for C4: a color pair, a numeric pair whose unit is taken from
the current value ("em", not the destination's "px"), and an opaque pair. -/
theorem classifier_order_witness :
    TSQ.classify "rgb(255, 0, 0)" "blue" = .colorP [255, 0, 0, 1] [0, 0, 255, 1] ∧
    TSQ.classify "10em" "20px" = .numericP 10 20 "em" ∧
    TSQ.classify "auto" "foo" = .snap "foo" :=
  ⟨(classifier_order "rgb(255, 0, 0)" "blue").1 [0, 0, 255, 1] [255, 0, 0, 1]
      (by decide) (by decide),
   ((classifier_order "10em" "20px").2.1 (Or.inl (by decide)) (by decide) (by decide)).trans
      (by decide),
   (classifier_order "auto" "foo").2.2 (Or.inl (by decide)) (by decide)⟩

/-! ## C5: rgba alpha handling (code bug) -/

/-- C5: the claim states that `rgba(r, g, b, a)` with a decimal alpha
preserves the float alpha (0.5 stays 0.5).  The source parses the alpha
capture with `parseInt`, which truncates at the decimal point: the resolver
maps `rgba(10, 20, 30, 0.5)` to `[10, 20, 30, 0]`, losing the fractional
alpha.  The capture pattern `([\d.]+)`, the hex branch's float alpha and the
interpolator's unrounded alpha all show the float reading is the intent. -/
theorem rgba_alpha_parseInt_truncates :
    TSQ.parseColor "rgba(10, 20, 30, 0.5)" = some [10, 20, 30, 0] := by
  have hm : TSQ.matchRgba "rgba(10, 20, 30, 0.5)" = some (10, 20, 30, ['0', '.', '5']) := by
    decide
  have hr : TSQ.matchRgb "rgba(10, 20, 30, 0.5)" = none := by decide
  have h1 : List.takeWhile Char.isDigit ['0', '.', '5'] = ['0'] := by decide
  have h2 : List.dropWhile Char.isDigit ['0', '.', '5'] = ['.', '5'] := by decide
  have h3 : TSQ.digitsVal ['0'] = 0 := by decide
  have h4 : List.takeWhile Char.isDigit ['5'] = ['5'] := by decide
  have h5 : TSQ.digitsVal ['5'] = 5 := by decide
  have hne : TSQ.jsParseFloatCap ['0', '.', '5'] ≠ 0 := by
    simp only [TSQ.jsParseFloatCap, h1, h2, h4, h3, h5]
    norm_num
  have ht : TSQ.rendersTransparent "rgba(10, 20, 30, 0.5)" = false := by
    simp only [TSQ.rendersTransparent, hm]
    simp [hne]
  have hcap : TSQ.jsParseIntCap ['0', '.', '5'] = 0 := by
    simp only [TSQ.jsParseIntCap, h1, h3]
    norm_num
  simp only [TSQ.parseColor, ht, hr, hm, Bool.false_eq_true, if_false, hcap]
  norm_num

/-! ## C6: hex form coverage (code bug) -/

/-- C6: the claim states all four hex forms are recognized.  The gate
pattern `^#([a-fA-F0-9]{3}){1,2}$` admits only 3- or 6-digit bodies, so
`#RGBA` and `#RRGGBBAA` resolve to not-a-color; the nibble-duplication for
length 4 and the `hex.length === 8` alpha division in the source are dead
code behind that gate.  The 3- and 6-digit forms behave as claimed. -/
theorem hex_gate_three_or_six_only :
    TSQ.parseColor "#abcd" = none ∧
    TSQ.parseColor "#12345678" = none ∧
    TSQ.parseColor "#abc" = some [170, 187, 204, 1] ∧
    TSQ.parseColor "#aabbcc" = some [170, 187, 204, 1] := by decide

/-! ## C7: the OKLCH pipeline (corrected) -/

/-- C7 counterexample: the claim states the resolver turns `oklch(L C H)`
into a color whose RGB channels lie in `[0, 255]` with alpha 1.  On the
source, the `oklch` branch returns the raw pipeline output: a 3-element
array — there is no alpha component at all — whose channels are the
unclamped gamma-encoded values on a nominal `[0, 1]` scale.  At
`oklch(0.1 0.3 0.0)` the result has length 3 (not a quadruple ending in 1),
and its green channel is negative, hence not in `[0, 255]`.  The hue is 0,
where the oracle stand-ins of `mConst1` agree with the true cosine and sine;
the green channel is negative for the true power oracle as well, since its
gamma branch is `-(1.055·p - 0.055)` with `p = |g|^(1/2.4) ≥ 0.0905`. -/
theorem oklch_triple_counterexample :
    (P3.parseColor mConst1 "oklch(0.1 0.3 0.0)").map List.length = some 3 ∧
    ((P3.parseColor mConst1 "oklch(0.1 0.3 0.0)").getD []).getD 1 0 < 0 := by
  have hrgb : TSQ.matchRgb "oklch(0.1 0.3 0.0)" = none := by decide
  have hrgba : TSQ.matchRgba "oklch(0.1 0.3 0.0)" = none := by decide
  have hhex : TSQ.matchHex "oklch(0.1 0.3 0.0)" = none := by decide
  have hok : P3.matchOklch "oklch(0.1 0.3 0.0)"
      = some ((['0'], ['1']), (['0'], ['3']), (['0'], ['0'])) := by decide
  have d0 : TSQ.digitsVal ['0'] = 0 := by decide
  have d1 : TSQ.digitsVal ['1'] = 1 := by decide
  have d3 : TSQ.digitsVal ['3'] = 3 := by decide
  have hl : P3.floatCapVal (['0'], ['1']) = 1/10 := by
    simp [P3.floatCapVal, d0, d1]
  have hc : P3.floatCapVal (['0'], ['3']) = 3/10 := by
    simp [P3.floatCapVal, d0, d3]
  have hh : P3.floatCapVal (['0'], ['0']) = 0 := by
    simp [P3.floatCapVal, d0]
  refine ⟨?_, ?_⟩
  · simp only [P3.parseColor, hrgb, hrgba, hhex, hok, hl, hc, hh]
    norm_num [P3.oklch2rgb, P3.oklch2oklab, P3.oklab2xyz, P3.xyz2rgbLinear,
      P3.srgbLinear2rgb, P3.multiplyMatrices, P3.gammaEncode, mConst1]
  · simp only [P3.parseColor, hrgb, hrgba, hhex, hok, hl, hc, hh]
    norm_num [P3.oklch2rgb, P3.oklch2oklab, P3.oklab2xyz, P3.xyz2rgbLinear,
      P3.srgbLinear2rgb, P3.multiplyMatrices, P3.gammaEncode, mConst1]
    split <;> norm_num

/-- C7 (amended): the resolver converts `oklch(L C H)` through exactly the
claimed pipeline — OKLCH to OKLAB with `L` unchanged,
`a = C·cos(H·π/180)`, `b = C·sin(H·π/180)` and a `NaN` hue giving
`a = b = 0`; a first fixed 3×3 matrix to LMS-prime; cubing; a second fixed
matrix to XYZ; a third fixed matrix to linear RGB; and the gamma encoding
`12.92·c` for `|c| ≤ 0.0031308`, else `sign(c)·(1.055·|c|^(1/2.4) − 0.055)`
— but the result is the bare 3-component triple of raw gamma-encoded
channel values (nominal `[0, 1]` scale, unclamped), with no alpha
component and no rescaling to `[0, 255]`. -/
theorem oklch_pipeline_formulas (m : P3.MathOps) (l c h x : ℚ) (lab : List ℚ) :
    (P3.oklch2oklab m l c none = [l, 0, 0]) ∧
    (P3.oklch2oklab m l c (some h)
       = [l, c * m.cos (h * m.pi / 180), c * m.sin (h * m.pi / 180)]) ∧
    (P3.oklch2rgb m l c (some h)
       = P3.srgbLinear2rgb m (P3.xyz2rgbLinear (P3.oklab2xyz (P3.oklch2oklab m l c (some h))))) ∧
    (P3.oklab2xyz lab = P3.multiplyMatrices
       [1.2268798758459243, -0.5578149944602171, 0.2813910456659647,
        -0.0405757452148008, 1.1122868032803170, -0.0717110580655164,
        -0.0763729366746601, -0.4214933324022432, 1.5869240198367816]
       ((P3.multiplyMatrices
          [1, 0.3963377773761749, 0.2158037573099136,
           1, -0.1055613458156586, -0.0638541728258133,
           1, -0.0894841775298119, -1.2914855480194092] lab).map (fun v => v ^ 3))) ∧
    (|x| ≤ 0.0031308 → P3.gammaEncode m x = 12.92 * x) ∧
    (0.0031308 < |x| →
       P3.gammaEncode m x = (if x < 0 then -1 else 1) * (1.055 * m.rpow124 |x| - 0.055)) ∧
    ((P3.oklch2rgb m l c (some h)).length = 3) ∧
    (P3.parseColor m "oklch(0.5 0.2 120.0)" = some (P3.oklch2rgb m
       (P3.floatCapVal (['0'], ['5'])) (P3.floatCapVal (['0'], ['2']))
       (some (P3.floatCapVal (['1', '2', '0'], ['0']))))) ∧
    (P3.floatCapVal (['0'], ['5']) = 1/2 ∧ P3.floatCapVal (['0'], ['2']) = 1/5 ∧
       P3.floatCapVal (['1', '2', '0'], ['0']) = 120) := by
  refine ⟨rfl, rfl, rfl, rfl, ?_, ?_, rfl, ?_, ?_, ?_, ?_⟩
  · intro hx
    simp [P3.gammaEncode, not_lt.mpr hx]
  · intro hx
    simp [P3.gammaEncode, hx]
  · have hok : P3.matchOklch "oklch(0.5 0.2 120.0)"
        = some ((['0'], ['5']), (['0'], ['2']), (['1', '2', '0'], ['0'])) := by decide
    have hrgb : TSQ.matchRgb "oklch(0.5 0.2 120.0)" = none := by decide
    have hrgba : TSQ.matchRgba "oklch(0.5 0.2 120.0)" = none := by decide
    have hhex : TSQ.matchHex "oklch(0.5 0.2 120.0)" = none := by decide
    simp only [P3.parseColor, hrgb, hrgba, hhex, hok]
  · have d0 : TSQ.digitsVal ['0'] = 0 := by decide
    have d5 : TSQ.digitsVal ['5'] = 5 := by decide
    simp [P3.floatCapVal, d0, d5]
    norm_num
  · have d0 : TSQ.digitsVal ['0'] = 0 := by decide
    have d2 : TSQ.digitsVal ['2'] = 2 := by decide
    simp [P3.floatCapVal, d0, d2]
    norm_num
  · have d120 : TSQ.digitsVal ['1', '2', '0'] = 120 := by decide
    have d0 : TSQ.digitsVal ['0'] = 0 := by decide
    simp [P3.floatCapVal, d120, d0]

/-- Witness for the amended C7: both gamma branches and the `NaN` hue rule
at concrete inputs. -/
theorem oklch_pipeline_formulas_witness :
    P3.gammaEncode mConst1 (1/1000) = 12.92 * (1/1000) ∧
    P3.gammaEncode mConst1 (-(1/2))
      = (if (-(1/2) : ℚ) < 0 then -1 else 1) * (1.055 * mConst1.rpow124 |(-(1/2) : ℚ)| - 0.055) ∧
    P3.oklch2oklab mConst1 (1/2) (1/5) none = [1/2, 0, 0] :=
  ⟨(oklch_pipeline_formulas mConst1 0 0 0 (1/1000) []).2.2.2.2.1
      (by rw [abs_of_pos (by norm_num : (0 : ℚ) < 1/1000)]; norm_num),
   (oklch_pipeline_formulas mConst1 0 0 0 (-(1/2)) []).2.2.2.2.2.1
      (by rw [abs_neg, abs_of_pos (by norm_num : (0 : ℚ) < 1/2)]; norm_num),
   (oklch_pipeline_formulas mConst1 (1/2) (1/5) 0 0 []).1⟩

/-! # Machine lemmas -/

namespace TSQ

theorem updNodes_same (f : ℕ → NodeSt) (n : ℕ) (v : NodeSt) : updNodes f n v n = v := by
  simp [updNodes]

theorem updNodes_ne (f : ℕ → NodeSt) (n : ℕ) (v : NodeSt) (m : ℕ) (h : m ≠ n) :
    updNodes f n v m = f m := by
  simp [updNodes, h]

theorem activateEntry_nodes (s : Sys) (n : ℕ) (e : Entry) :
    (activateEntry s n e).nodes = s.nodes := rfl

theorem activateEntry_now (s : Sys) (n : ℕ) (e : Entry) :
    (activateEntry s n e).now = s.now := rfl

theorem activateEntry_nextId (s : Sys) (n : ℕ) (e : Entry) :
    (activateEntry s n e).nextId = s.nextId := rfl

theorem activateEntry_raf (s : Sys) (n : ℕ) (e : Entry) :
    (activateEntry s n e).raf = s.raf ++ [(n, nextClosure s n e)] := rfl

theorem activateEntry_trace (s : Sys) (n : ℕ) (e : Entry) :
    (activateEntry s n e).trace = s.trace ++ [Ev.act n e.id] := rfl

theorem runStep_lt (s : Sys) (n : ℕ) (c : Closure) (h : stepT s c < 1) :
    runStep s n c =
      { s with
        nodes := updNodes s.nodes n
          { s.nodes n with style := applyWrites (s.nodes n).style (stepWrites s c) },
        raf := s.raf ++ [(n, c)],
        trace := s.trace ++ Ev.step n c.id (stepT s c) :: wEvs n (stepWrites s c) } := by
  simp [runStep, h]

theorem runStep_ge_nil (s : Sys) (n : ℕ) (c : Closure) (h : ¬ stepT s c < 1)
    (hq : (s.nodes n).queue.tail = []) :
    runStep s n c =
      { s with
        nodes := updNodes s.nodes n
          { style := applyWrites (s.nodes n).style (stepWrites s c), queue := [] },
        trace := s.trace ++ Ev.step n c.id (stepT s c) :: wEvs n (stepWrites s c)
                   ++ (if c.hasCb then [Ev.cb n c.id] else []) ++ [Ev.done n c.id] } := by
  simp [runStep, h, hq]

theorem runStep_ge_cons (s : Sys) (n : ℕ) (c : Closure) (e : Entry) (tl : List Entry)
    (h : ¬ stepT s c < 1) (hq : (s.nodes n).queue.tail = e :: tl) :
    runStep s n c =
      activateEntry
        { s with
          nodes := updNodes s.nodes n
            { style := applyWrites (s.nodes n).style (stepWrites s c), queue := e :: tl },
          trace := s.trace ++ Ev.step n c.id (stepT s c) :: wEvs n (stepWrites s c)
                     ++ (if c.hasCb then [Ev.cb n c.id] else []) ++ [Ev.done n c.id] }
        n e := by
  simp [runStep, h, hq]

theorem animate_empty (s : Sys) (n : ℕ) (props : List (String × String)) (dur : ℚ)
    (easing : ℚ → ℚ) (hasCb : Bool) (tA : ℚ) (hq : (s.nodes n).queue = []) :
    animate s n props dur easing hasCb tA =
      activateEntry
        { s with
          now := tA, nextId := s.nextId + 1,
          nodes := updNodes s.nodes n
            { s.nodes n with queue := [⟨s.nextId, props, dur, easing, hasCb⟩] },
          trace := s.trace ++ [Ev.enq n s.nextId hasCb] }
        n ⟨s.nextId, props, dur, easing, hasCb⟩ := by
  simp [animate, hq]

theorem animate_nonempty (s : Sys) (n : ℕ) (props : List (String × String)) (dur : ℚ)
    (easing : ℚ → ℚ) (hasCb : Bool) (tA : ℚ) (hq : (s.nodes n).queue ≠ []) :
    animate s n props dur easing hasCb tA =
      { s with
        now := tA, nextId := s.nextId + 1,
        nodes := updNodes s.nodes n
          { s.nodes n with queue := (s.nodes n).queue ++ [⟨s.nextId, props, dur, easing, hasCb⟩] },
        trace := s.trace ++ [Ev.enq n s.nextId hasCb] } := by
  have hlen : ¬ ((s.nodes n).queue ++ [(⟨s.nextId, props, dur, easing, hasCb⟩ : Entry)]).length = 1 := by
    intro hlen1
    rw [List.length_append, List.length_singleton] at hlen1
    exact hq (List.length_eq_zero.1 (Nat.succ_injective hlen1))
  simp only [animate]
  rw [if_neg hlen]

theorem frameStep_none (s : Sys) (n : ℕ) (tF : ℚ) (h : pullClosure s.raf n = none) :
    frameStep s n tF = { s with now := tF } := by
  simp [frameStep, h]

theorem frameStep_some (s : Sys) (n : ℕ) (tF : ℚ) (c : Closure) (rest : List (ℕ × Closure))
    (h : pullClosure s.raf n = some (c, rest)) :
    frameStep s n tF = runStep { s with now := tF, raf := rest } n c := by
  simp [frameStep, h]

theorem pullClosure_eq_some {raf : List (ℕ × Closure)} {n : ℕ} {c : Closure}
    {rest : List (ℕ × Closure)} (h : pullClosure raf n = some (c, rest)) :
    ∃ l1 l2, raf = l1 ++ (n, c) :: l2 ∧ rest = l1 ++ l2 ∧ ∀ x ∈ l1, x.1 ≠ n := by
  induction raf generalizing rest with
  | nil => simp [pullClosure] at h
  | cons hd tl ih =>
      obtain ⟨m, c'⟩ := hd
      by_cases hm : m = n
      · subst hm
        simp [pullClosure] at h
        obtain ⟨hc, hrest⟩ := h
        subst hc; subst hrest
        exact ⟨[], tl, rfl, rfl, by simp⟩
      · simp only [pullClosure, if_neg hm] at h
        rcases Option.map_eq_some'.1 h with ⟨⟨c'', rest''⟩, hp, heq⟩
        cases heq
        obtain ⟨l1, l2, htl, hrest2, hl1⟩ := ih hp
        refine ⟨(m, c') :: l1, l2, by simp [htl], by simp [hrest2], ?_⟩
        intro x hx
        rcases List.mem_cons.1 hx with hx | hx
        · subst hx; exact hm
        · exact hl1 x hx

theorem pullClosure_mem {raf : List (ℕ × Closure)} {n : ℕ} {c : Closure}
    {rest : List (ℕ × Closure)} (h : pullClosure raf n = some (c, rest)) : (n, c) ∈ raf := by
  obtain ⟨l1, l2, hraf, _, _⟩ := pullClosure_eq_some h
  rw [hraf]; simp

theorem pullClosure_rest_sub {raf : List (ℕ × Closure)} {n : ℕ} {c : Closure}
    {rest : List (ℕ × Closure)} (h : pullClosure raf n = some (c, rest)) :
    ∀ x ∈ rest, x ∈ raf := by
  obtain ⟨l1, l2, hraf, hrest, _⟩ := pullClosure_eq_some h
  subst hraf; subst hrest
  intro x hx
  rcases List.mem_append.1 hx with hx | hx
  · exact List.mem_append.2 (Or.inl hx)
  · exact List.mem_append.2 (Or.inr (List.mem_cons.2 (Or.inr hx)))

theorem pullClosure_rest_none {raf : List (ℕ × Closure)} {n : ℕ} {c : Closure}
    {rest : List (ℕ × Closure)} (hnd : raf.Pairwise (fun a b => a.1 ≠ b.1))
    (h : pullClosure raf n = some (c, rest)) :
    ∀ x ∈ rest, x.1 ≠ n := by
  obtain ⟨l1, l2, hraf, hrest, hl1⟩ := pullClosure_eq_some h
  subst hraf; subst hrest
  intro x hx
  rcases List.mem_append.1 hx with hx | hx
  · exact hl1 x hx
  · have := (List.pairwise_append.1 hnd).2
    have h2 := (List.pairwise_cons.1 this.1).1 x hx
    exact fun hxn => h2 (by rw [hxn])

theorem pullClosure_rest_nodup {raf : List (ℕ × Closure)} {n : ℕ} {c : Closure}
    {rest : List (ℕ × Closure)} (hnd : raf.Pairwise (fun a b => a.1 ≠ b.1))
    (h : pullClosure raf n = some (c, rest)) :
    rest.Pairwise (fun a b => a.1 ≠ b.1) := by
  obtain ⟨l1, l2, hraf, hrest, _⟩ := pullClosure_eq_some h
  subst hraf; subst hrest
  have := List.pairwise_append.1 hnd
  refine List.pairwise_append.2 ⟨this.1, (List.pairwise_cons.1 this.2.1).2, ?_⟩
  intro a ha b hb
  exact this.2.2 a ha b (List.mem_cons.2 (Or.inr hb))

theorem mem_wEvs {ev : Ev} {n : ℕ} {ws : List (String × StyleVal)} (h : ev ∈ wEvs n ws) :
    ∃ p v, ev = Ev.write n p v := by
  unfold wEvs at h
  rcases List.mem_map.1 h with ⟨w, _, hw⟩
  exact ⟨w.1, w.2, hw.symm⟩

theorem split_middle {old evs tr1 tr2 : List Ev} {ev : Ev}
    (h : old ++ evs = tr1 ++ ev :: tr2) :
    (∃ l, old = tr1 ++ ev :: l) ∨ (∃ pre suf, evs = pre ++ ev :: suf ∧ tr1 = old ++ pre) := by
  rcases List.append_eq_append_iff.1 h with ⟨a, ha1, ha2⟩ | ⟨a, ha1, ha2⟩
  · exact Or.inr ⟨a, tr2, ha2, ha1⟩
  · cases a with
    | nil =>
        refine Or.inr ⟨[], tr2, ?_, by simp [ha1]⟩
        simpa using ha2.symm
    | cons x l =>
        simp only [List.cons_append] at ha2
        injection ha2 with h1 h2
        subst h1
        exact Or.inl ⟨l, ha1⟩

theorem materialize_keys (style : List (String × String)) (props : List (String × String)) :
    (materialize style props).map Prod.fst = props.map Prod.fst := by
  simp only [materialize, List.map_map]
  rfl

theorem head_min_not_mem {e : Entry} {tl : List Entry} {i : ℕ}
    (hs : (e :: tl).Pairwise (fun a b => a.id < b.id)) (hi : i < e.id) :
    ∀ e2 ∈ e :: tl, e2.id ≠ i := by
  intro e2 he2
  rcases List.mem_cons.1 he2 with rfl | he2
  · omega
  · have := (List.pairwise_cons.1 hs).1 e2 he2
    omega

theorem act_split (l1 : List Ev) (a : Ev) {pre suf : List Ev} {n j : ℕ}
    (hno : ∀ n' i, Ev.act n' i ∉ l1)
    (h : l1 ++ [a] = pre ++ Ev.act n j :: suf) :
    pre = l1 ∧ a = Ev.act n j ∧ suf = [] := by
  induction l1 generalizing pre with
  | nil =>
      cases pre with
      | nil =>
          simp only [List.nil_append] at h
          injection h with h1 h2
          exact ⟨rfl, h1, h2.symm⟩
      | cons y pre2 =>
          simp only [List.nil_append, List.cons_append] at h
          injection h with h1 h2
          exact absurd h2.symm (by simp)
  | cons x l1 ih =>
      cases pre with
      | nil =>
          simp only [List.cons_append, List.nil_append] at h
          injection h with h1 h2
          exact absurd (h1 ▸ List.mem_cons_self x l1) (hno n j)
      | cons y pre2 =>
          simp only [List.cons_append] at h
          injection h with h1 h2
          have hno2 : ∀ n' i, Ev.act n' i ∉ l1 := by
            intro n' i hmem
            exact hno n' i (List.mem_cons.2 (Or.inr hmem))
          obtain ⟨hp, ha, hs⟩ := ih hno2 h2
          exact ⟨by rw [hp, h1], ha, hs⟩

theorem inv_init (styles : ℕ → List (String × String)) : Inv (Sys.init styles) := by
  constructor <;> simp [Sys.init]

theorem inv_drop_raf {s : Sys} (h : Inv s) (now2 : ℚ) {rest : List (ℕ × Closure)}
    (hsub : ∀ x ∈ rest, x ∈ s.raf)
    (hnodup : rest.Pairwise (fun a b => a.1 ≠ b.1)) :
    Inv { s with now := now2, raf := rest } := by
  refine ⟨hnodup, ?_, h.queueSorted, h.queueLt, h.queueEnq, h.evLt, h.enqUnique,
    h.enqResolved, h.doneGone, h.doneCb, h.cbDone, h.cbOnce, h.ordStep, h.ordAct⟩
  intro m c2 hm
  exact h.rafHead m c2 (hsub _ hm)

theorem raf_node_queue_ne_nil {s : Sys} (h : Inv s) {n : ℕ} {c : Closure}
    (hm : (n, c) ∈ s.raf) : (s.nodes n).queue ≠ [] := by
  obtain ⟨e, tl, hq, _⟩ := h.rafHead n c hm
  simp [hq]


theorem animate_now (s : Sys) (n : ℕ) (props : List (String × String)) (dur : ℚ)
    (easing : ℚ → ℚ) (hasCb : Bool) (tA : ℚ) :
    (animate s n props dur easing hasCb tA).now = tA := by
  simp only [animate]
  split <;> rfl

theorem animate_nextId (s : Sys) (n : ℕ) (props : List (String × String)) (dur : ℚ)
    (easing : ℚ → ℚ) (hasCb : Bool) (tA : ℚ) :
    (animate s n props dur easing hasCb tA).nextId = s.nextId + 1 := by
  simp only [animate]
  split <;> rfl

theorem animate_nodes_of_empty (s : Sys) (n : ℕ) (props : List (String × String)) (dur : ℚ)
    (easing : ℚ → ℚ) (hasCb : Bool) (tA : ℚ) (hq : (s.nodes n).queue = []) :
    (animate s n props dur easing hasCb tA).nodes
      = updNodes s.nodes n { s.nodes n with queue := [⟨s.nextId, props, dur, easing, hasCb⟩] } := by
  rw [animate_empty s n props dur easing hasCb tA hq]
  rfl

theorem animate_raf_of_empty (s : Sys) (n : ℕ) (props : List (String × String)) (dur : ℚ)
    (easing : ℚ → ℚ) (hasCb : Bool) (tA : ℚ) (hq : (s.nodes n).queue = []) :
    (animate s n props dur easing hasCb tA).raf
      = s.raf ++ [(n, ⟨s.nextId, tA, dur, easing,
          materialize (s.nodes n).style props, hasCb⟩)] := by
  rw [animate_empty s n props dur easing hasCb tA hq, activateEntry_raf]
  simp [nextClosure, updNodes_same]

theorem animate_trace_of_empty (s : Sys) (n : ℕ) (props : List (String × String)) (dur : ℚ)
    (easing : ℚ → ℚ) (hasCb : Bool) (tA : ℚ) (hq : (s.nodes n).queue = []) :
    (animate s n props dur easing hasCb tA).trace
      = s.trace ++ [Ev.enq n s.nextId hasCb, Ev.act n s.nextId] := by
  rw [animate_empty s n props dur easing hasCb tA hq, activateEntry_trace]
  simp

theorem animate_nodes_of_nonempty (s : Sys) (n : ℕ) (props : List (String × String)) (dur : ℚ)
    (easing : ℚ → ℚ) (hasCb : Bool) (tA : ℚ) (hq : (s.nodes n).queue ≠ []) :
    (animate s n props dur easing hasCb tA).nodes
      = updNodes s.nodes n
          { s.nodes n with queue := (s.nodes n).queue ++ [⟨s.nextId, props, dur, easing, hasCb⟩] } := by
  rw [animate_nonempty s n props dur easing hasCb tA hq]

theorem animate_raf_of_nonempty (s : Sys) (n : ℕ) (props : List (String × String)) (dur : ℚ)
    (easing : ℚ → ℚ) (hasCb : Bool) (tA : ℚ) (hq : (s.nodes n).queue ≠ []) :
    (animate s n props dur easing hasCb tA).raf = s.raf := by
  rw [animate_nonempty s n props dur easing hasCb tA hq]

theorem animate_trace_of_nonempty (s : Sys) (n : ℕ) (props : List (String × String)) (dur : ℚ)
    (easing : ℚ → ℚ) (hasCb : Bool) (tA : ℚ) (hq : (s.nodes n).queue ≠ []) :
    (animate s n props dur easing hasCb tA).trace
      = s.trace ++ [Ev.enq n s.nextId hasCb] := by
  rw [animate_nonempty s n props dur easing hasCb tA hq]

theorem inv_animate (s : Sys) (n : ℕ) (props : List (String × String)) (dur : ℚ)
    (easing : ℚ → ℚ) (hasCb : Bool) (tA : ℚ) (h : Inv s) :
    Inv (animate s n props dur easing hasCb tA) := by
  by_cases hq : (s.nodes n).queue = []
  case neg =>
    constructor
    case rafNodup =>
      rw [animate_raf_of_nonempty s n props dur easing hasCb tA hq]
      exact h.rafNodup
    case rafHead =>
      intro m c2 hm
      rw [animate_raf_of_nonempty s n props dur easing hasCb tA hq] at hm
      rw [animate_nodes_of_nonempty s n props dur easing hasCb tA hq]
      obtain ⟨e, tl, hqm, h1, h2, h3, h4⟩ := h.rafHead m c2 hm
      by_cases hmn : m = n
      · refine ⟨e, tl ++ [⟨s.nextId, props, dur, easing, hasCb⟩], ?_, h1, h2, h3, h4⟩
        rw [hmn, updNodes_same]
        dsimp only
        rw [← hmn, hqm]
        rfl
      · exact ⟨e, tl, by rw [updNodes_ne _ _ _ _ hmn]; exact hqm, h1, h2, h3, h4⟩
    case queueSorted =>
      intro m
      rw [animate_nodes_of_nonempty s n props dur easing hasCb tA hq]
      by_cases hmn : m = n
      · rw [hmn, updNodes_same]
        dsimp only
        refine List.pairwise_append.2 ⟨h.queueSorted n, by simp, ?_⟩
        intro a ha b hb
        simp only [List.mem_singleton] at hb
        subst hb
        exact h.queueLt n a ha
      · rw [updNodes_ne _ _ _ _ hmn]
        exact h.queueSorted m
    case queueLt =>
      intro m e he
      rw [animate_nodes_of_nonempty s n props dur easing hasCb tA hq] at he
      rw [animate_nextId]
      by_cases hmn : m = n
      · rw [hmn, updNodes_same] at he
        dsimp only at he
        rcases List.mem_append.1 he with he | he
        · exact Nat.lt_succ_of_lt (h.queueLt n e he)
        · simp only [List.mem_singleton] at he
          subst he
          exact Nat.lt_succ_self _
      · rw [updNodes_ne _ _ _ _ hmn] at he
        exact Nat.lt_succ_of_lt (h.queueLt m e he)
    case queueEnq =>
      intro m e he
      rw [animate_nodes_of_nonempty s n props dur easing hasCb tA hq] at he
      rw [animate_trace_of_nonempty s n props dur easing hasCb tA hq]
      by_cases hmn : m = n
      · rw [hmn, updNodes_same] at he
        dsimp only at he
        rcases List.mem_append.1 he with he | he
        · rw [hmn]
          exact List.mem_append.2 (Or.inl (h.queueEnq n e he))
        · simp only [List.mem_singleton] at he
          subst he
          rw [hmn]
          exact List.mem_append.2 (Or.inr (by simp))
      · rw [updNodes_ne _ _ _ _ hmn] at he
        exact List.mem_append.2 (Or.inl (h.queueEnq m e he))
    case evLt =>
      intro ev hev i hrid
      rw [animate_trace_of_nonempty s n props dur easing hasCb tA hq] at hev
      rw [animate_nextId]
      rcases List.mem_append.1 hev with hev | hev
      · exact Nat.lt_succ_of_lt (h.evLt ev hev i hrid)
      · simp only [List.mem_singleton] at hev
        subst hev
        simp only [ridOf, Option.some.injEq] at hrid
        omega
    case enqUnique =>
      intro m i f g hf hg
      rw [animate_trace_of_nonempty s n props dur easing hasCb tA hq] at hf hg
      rcases List.mem_append.1 hf with hf | hf <;> rcases List.mem_append.1 hg with hg | hg
      · exact h.enqUnique m i f g hf hg
      · simp only [List.mem_singleton, Ev.enq.injEq] at hg
        obtain ⟨hg1, hg2, hg3⟩ := hg
        have hlt := h.evLt _ hf i rfl
        omega
      · simp only [List.mem_singleton, Ev.enq.injEq] at hf
        obtain ⟨hf1, hf2, hf3⟩ := hf
        have hlt := h.evLt _ hg i rfl
        omega
      · simp only [List.mem_singleton, Ev.enq.injEq] at hf hg
        rw [hf.2.2, hg.2.2]
    case enqResolved =>
      intro m i f hf
      rw [animate_trace_of_nonempty s n props dur easing hasCb tA hq] at hf ⊢
      rw [animate_nodes_of_nonempty s n props dur easing hasCb tA hq]
      rcases List.mem_append.1 hf with hf | hf
      · rcases h.enqResolved m i f hf with ⟨e, he, hei⟩ | hd
        · left
          refine ⟨e, ?_, hei⟩
          by_cases hmn : m = n
          · rw [hmn, updNodes_same]
            dsimp only
            rw [← hmn]
            exact List.mem_append.2 (Or.inl he)
          · rw [updNodes_ne _ _ _ _ hmn]
            exact he
        · exact Or.inr (List.mem_append.2 (Or.inl hd))
      · simp only [List.mem_singleton, Ev.enq.injEq] at hf
        obtain ⟨hf1, hf2, hf3⟩ := hf
        left
        refine ⟨⟨s.nextId, props, dur, easing, hasCb⟩, ?_, hf2.symm⟩
        rw [hf1, updNodes_same]
        simp
    case doneGone =>
      intro m i hd e he
      rw [animate_trace_of_nonempty s n props dur easing hasCb tA hq] at hd
      rw [animate_nodes_of_nonempty s n props dur easing hasCb tA hq] at he
      have hd2 : Ev.done m i ∈ s.trace := by
        rcases List.mem_append.1 hd with hd | hd
        · exact hd
        · simp at hd
      by_cases hmn : m = n
      · rw [hmn, updNodes_same] at he
        dsimp only at he
        rcases List.mem_append.1 he with he | he
        · rw [hmn] at hd2
          exact h.doneGone n i hd2 e he
        · simp only [List.mem_singleton] at he
          subst he
          intro hcon
          dsimp only at hcon
          have hlt := h.evLt _ hd2 i rfl
          omega
      · rw [updNodes_ne _ _ _ _ hmn] at he
        exact h.doneGone m i hd2 e he
    case doneCb =>
      intro m i hd hf
      rw [animate_trace_of_nonempty s n props dur easing hasCb tA hq] at hd hf ⊢
      have hd2 : Ev.done m i ∈ s.trace := by
        rcases List.mem_append.1 hd with hd | hd
        · exact hd
        · simp at hd
      rcases List.mem_append.1 hf with hf | hf
      · exact List.mem_append.2 (Or.inl (h.doneCb m i hd2 hf))
      · simp only [List.mem_singleton, Ev.enq.injEq] at hf
        obtain ⟨hf1, hf2, hf3⟩ := hf
        have hlt := h.evLt _ hd2 i rfl
        omega
    case cbDone =>
      intro m i hc
      rw [animate_trace_of_nonempty s n props dur easing hasCb tA hq] at hc ⊢
      have hc2 : Ev.cb m i ∈ s.trace := by
        rcases List.mem_append.1 hc with hc | hc
        · exact hc
        · simp at hc
      exact List.mem_append.2 (Or.inl (h.cbDone m i hc2))
    case cbOnce =>
      intro m i
      rw [animate_trace_of_nonempty s n props dur easing hasCb tA hq]
      rw [List.count_append]
      have h0 : List.count (Ev.cb m i) [Ev.enq n s.nextId hasCb] = 0 := by simp
      rw [h0]
      simpa using h.cbOnce m i
    case ordStep =>
      intro m i j t hij hf tr1 tr2 hsp
      rw [animate_trace_of_nonempty s n props dur easing hasCb tA hq] at hf hsp
      rcases split_middle hsp with ⟨l, hold⟩ | ⟨pre, suf, hevs, htr1⟩
      · have hf2 : Ev.enq m i true ∈ s.trace := by
          rcases List.mem_append.1 hf with hf | hf
          · exact hf
          · simp only [List.mem_singleton, Ev.enq.injEq] at hf
            obtain ⟨hf1, hf2, hf3⟩ := hf
            have : Ev.step m j t ∈ s.trace := by
              rw [hold]; exact List.mem_append_right _ (List.mem_cons_self _ _)
            have hlt := h.evLt _ this j rfl
            omega
        exact h.ordStep m i j t hij hf2 tr1 l hold
      · have : Ev.step m j t ∈ [Ev.enq n s.nextId hasCb] := by
          rw [hevs]
          exact List.mem_append_right _ (List.mem_cons_self _ _)
        simp at this
    case ordAct =>
      intro m i j f hij hf tr1 tr2 hsp
      rw [animate_trace_of_nonempty s n props dur easing hasCb tA hq] at hf hsp
      rcases split_middle hsp with ⟨l, hold⟩ | ⟨pre, suf, hevs, htr1⟩
      · have hf2 : Ev.enq m i f ∈ s.trace := by
          rcases List.mem_append.1 hf with hf | hf
          · exact hf
          · simp only [List.mem_singleton, Ev.enq.injEq] at hf
            obtain ⟨hf1, hf2, hf3⟩ := hf
            have : Ev.act m j ∈ s.trace := by
              rw [hold]; exact List.mem_append_right _ (List.mem_cons_self _ _)
            have hlt := h.evLt _ this j rfl
            omega
        exact h.ordAct m i j f hij hf2 tr1 l hold
      · have : Ev.act m j ∈ [Ev.enq n s.nextId hasCb] := by
          rw [hevs]
          exact List.mem_append_right _ (List.mem_cons_self _ _)
        simp at this
  case pos =>
    have hnotin : ∀ c2 : Closure, (n, c2) ∉ s.raf := by
      intro c2 hc2
      exact raf_node_queue_ne_nil h hc2 hq
    constructor
    case rafNodup =>
      rw [animate_raf_of_empty s n props dur easing hasCb tA hq]
      refine List.pairwise_append.2 ⟨h.rafNodup, by simp, ?_⟩
      intro a ha b hb
      simp only [List.mem_singleton] at hb
      subst hb
      dsimp only
      intro hcon
      have hmem : (n, a.2) ∈ s.raf := by
        rw [← hcon]
        exact ha
      exact hnotin a.2 hmem
    case rafHead =>
      intro m c2 hm
      rw [animate_raf_of_empty s n props dur easing hasCb tA hq] at hm
      rw [animate_nodes_of_empty s n props dur easing hasCb tA hq]
      rcases List.mem_append.1 hm with hm | hm
      · by_cases hmn : m = n
        · exact absurd (hmn ▸ hm) (hnotin c2)
        · obtain ⟨e, tl, hqm, h1, h2, h3, h4⟩ := h.rafHead m c2 hm
          exact ⟨e, tl, by rw [updNodes_ne _ _ _ _ hmn]; exact hqm, h1, h2, h3, h4⟩
      · simp only [List.mem_singleton, Prod.mk.injEq] at hm
        obtain ⟨hm1, hm2⟩ := hm
        rw [hm1, hm2, updNodes_same]
        refine ⟨⟨s.nextId, props, dur, easing, hasCb⟩, [], rfl, rfl, rfl, rfl, ?_⟩
        exact materialize_keys _ _
    case queueSorted =>
      intro m
      rw [animate_nodes_of_empty s n props dur easing hasCb tA hq]
      by_cases hmn : m = n
      · rw [hmn, updNodes_same]
        simp
      · rw [updNodes_ne _ _ _ _ hmn]
        exact h.queueSorted m
    case queueLt =>
      intro m e he
      rw [animate_nodes_of_empty s n props dur easing hasCb tA hq] at he
      rw [animate_nextId]
      by_cases hmn : m = n
      · rw [hmn, updNodes_same] at he
        dsimp only at he
        simp only [List.mem_singleton] at he
        subst he
        exact Nat.lt_succ_self _
      · rw [updNodes_ne _ _ _ _ hmn] at he
        exact Nat.lt_succ_of_lt (h.queueLt m e he)
    case queueEnq =>
      intro m e he
      rw [animate_nodes_of_empty s n props dur easing hasCb tA hq] at he
      rw [animate_trace_of_empty s n props dur easing hasCb tA hq]
      by_cases hmn : m = n
      · rw [hmn, updNodes_same] at he
        dsimp only at he
        simp only [List.mem_singleton] at he
        subst he
        rw [hmn]
        exact List.mem_append.2 (Or.inr (by simp))
      · rw [updNodes_ne _ _ _ _ hmn] at he
        exact List.mem_append.2 (Or.inl (h.queueEnq m e he))
    case evLt =>
      intro ev hev i hrid
      rw [animate_trace_of_empty s n props dur easing hasCb tA hq] at hev
      rw [animate_nextId]
      rcases List.mem_append.1 hev with hev | hev
      · exact Nat.lt_succ_of_lt (h.evLt ev hev i hrid)
      · rcases List.mem_cons.1 hev with hev | hev
        · subst hev
          simp only [ridOf, Option.some.injEq] at hrid
          omega
        · simp only [List.mem_singleton] at hev
          subst hev
          simp only [ridOf, Option.some.injEq] at hrid
          omega
    case enqUnique =>
      intro m i f g hf hg
      rw [animate_trace_of_empty s n props dur easing hasCb tA hq] at hf hg
      have hcases : ∀ f2, Ev.enq m i f2 ∈ s.trace ++ [Ev.enq n s.nextId hasCb, Ev.act n s.nextId] →
          Ev.enq m i f2 ∈ s.trace ∨ (m = n ∧ i = s.nextId ∧ f2 = hasCb) := by
        intro f2 hf2
        rcases List.mem_append.1 hf2 with hf2 | hf2
        · exact Or.inl hf2
        · rcases List.mem_cons.1 hf2 with hf2 | hf2
          · simp only [Ev.enq.injEq] at hf2
            exact Or.inr hf2
          · simp at hf2
      rcases hcases f hf with hf2 | ⟨hf1, hf2, hf3⟩ <;> rcases hcases g hg with hg2 | hg3
      · exact h.enqUnique m i f g hf2 hg2
      · obtain ⟨hg1, hg2, hg3⟩ := hg3
        have hlt := h.evLt _ hf2 i rfl
        omega
      · have hlt := h.evLt _ hg2 i rfl
        omega
      · rw [hf3, hg3.2.2]
    case enqResolved =>
      intro m i f hf
      rw [animate_trace_of_empty s n props dur easing hasCb tA hq] at hf ⊢
      rw [animate_nodes_of_empty s n props dur easing hasCb tA hq]
      rcases List.mem_append.1 hf with hf | hf
      · rcases h.enqResolved m i f hf with ⟨e, he, hei⟩ | hd
        · by_cases hmn : m = n
          · rw [hmn] at he
            rw [hq] at he
            simp at he
          · left
            refine ⟨e, ?_, hei⟩
            rw [updNodes_ne _ _ _ _ hmn]
            exact he
        · exact Or.inr (List.mem_append.2 (Or.inl hd))
      · rcases List.mem_cons.1 hf with hf | hf
        · simp only [Ev.enq.injEq] at hf
          obtain ⟨hf1, hf2, hf3⟩ := hf
          left
          refine ⟨⟨s.nextId, props, dur, easing, hasCb⟩, ?_, hf2.symm⟩
          rw [hf1, updNodes_same]
          simp
        · simp at hf
    case doneGone =>
      intro m i hd e he
      rw [animate_trace_of_empty s n props dur easing hasCb tA hq] at hd
      rw [animate_nodes_of_empty s n props dur easing hasCb tA hq] at he
      have hd2 : Ev.done m i ∈ s.trace := by
        rcases List.mem_append.1 hd with hd | hd
        · exact hd
        · simp at hd
      by_cases hmn : m = n
      · rw [hmn, updNodes_same] at he
        dsimp only at he
        simp only [List.mem_singleton] at he
        subst he
        intro hcon
        dsimp only at hcon
        have hlt := h.evLt _ hd2 i rfl
        omega
      · rw [updNodes_ne _ _ _ _ hmn] at he
        exact h.doneGone m i hd2 e he
    case doneCb =>
      intro m i hd hf
      rw [animate_trace_of_empty s n props dur easing hasCb tA hq] at hd hf ⊢
      have hd2 : Ev.done m i ∈ s.trace := by
        rcases List.mem_append.1 hd with hd | hd
        · exact hd
        · simp at hd
      have hf2 : Ev.enq m i true ∈ s.trace := by
        rcases List.mem_append.1 hf with hf | hf
        · exact hf
        · rcases List.mem_cons.1 hf with hf | hf
          · simp only [Ev.enq.injEq] at hf
            obtain ⟨hf1, hf2, hf3⟩ := hf
            have hlt := h.evLt _ hd2 i rfl
            omega
          · simp at hf
      exact List.mem_append.2 (Or.inl (h.doneCb m i hd2 hf2))
    case cbDone =>
      intro m i hc
      rw [animate_trace_of_empty s n props dur easing hasCb tA hq] at hc ⊢
      have hc2 : Ev.cb m i ∈ s.trace := by
        rcases List.mem_append.1 hc with hc | hc
        · exact hc
        · simp at hc
      exact List.mem_append.2 (Or.inl (h.cbDone m i hc2))
    case cbOnce =>
      intro m i
      rw [animate_trace_of_empty s n props dur easing hasCb tA hq]
      rw [List.count_append]
      have h0 : List.count (Ev.cb m i) [Ev.enq n s.nextId hasCb, Ev.act n s.nextId] = 0 := by simp
      rw [h0]
      simpa using h.cbOnce m i
    case ordStep =>
      intro m i j t hij hf tr1 tr2 hsp
      rw [animate_trace_of_empty s n props dur easing hasCb tA hq] at hf hsp
      rcases split_middle hsp with ⟨l, hold⟩ | ⟨pre, suf, hevs, htr1⟩
      · have hf2 : Ev.enq m i true ∈ s.trace := by
          rcases List.mem_append.1 hf with hf | hf
          · exact hf
          · rcases List.mem_cons.1 hf with hf | hf
            · simp only [Ev.enq.injEq] at hf
              obtain ⟨hf1, hf2, hf3⟩ := hf
              have hstep : Ev.step m j t ∈ s.trace := by
                rw [hold]; exact List.mem_append_right _ (List.mem_cons_self _ _)
              have hlt := h.evLt _ hstep j rfl
              omega
            · simp at hf
        exact h.ordStep m i j t hij hf2 tr1 l hold
      · have : Ev.step m j t ∈ [Ev.enq n s.nextId hasCb, Ev.act n s.nextId] := by
          rw [hevs]
          exact List.mem_append_right _ (List.mem_cons_self _ _)
        simp at this
    case ordAct =>
      intro m i j f hij hf tr1 tr2 hsp
      rw [animate_trace_of_empty s n props dur easing hasCb tA hq] at hf hsp
      rcases split_middle hsp with ⟨l, hold⟩ | ⟨pre, suf, hevs, htr1⟩
      · have hf2 : Ev.enq m i f ∈ s.trace := by
          rcases List.mem_append.1 hf with hf | hf
          · exact hf
          · rcases List.mem_cons.1 hf with hf | hf
            · simp only [Ev.enq.injEq] at hf
              obtain ⟨hf1, hf2, hf3⟩ := hf
              have hact : Ev.act m j ∈ s.trace := by
                rw [hold]; exact List.mem_append_right _ (List.mem_cons_self _ _)
              have hlt := h.evLt _ hact j rfl
              omega
            · simp at hf
        exact h.ordAct m i j f hij hf2 tr1 l hold
      · obtain ⟨hpre, hact, hsuf⟩ := act_split [Ev.enq n s.nextId hasCb] (Ev.act n s.nextId)
          (by intro n2 i2 hmem; simp at hmem) hevs
        injection hact with hm1 hm2
        subst hm1
        subst hm2
        have hf2 : Ev.enq n i f ∈ s.trace := by
          rcases List.mem_append.1 hf with hf | hf
          · exact hf
          · rcases List.mem_cons.1 hf with hf | hf
            · simp only [Ev.enq.injEq] at hf
              obtain ⟨hf1, hf2, hf3⟩ := hf
              omega
            · simp at hf
        rcases h.enqResolved n i f hf2 with ⟨e, he, hei⟩ | hd
        · rw [hq] at he
          simp at he
        · rw [htr1, hpre]
          exact List.mem_append.2 (Or.inl hd)


theorem runStep_now (s : Sys) (n : ℕ) (c : Closure) : (runStep s n c).now = s.now := by
  simp only [runStep]
  split
  · rfl
  · split <;> rfl

theorem runStep_nextId (s : Sys) (n : ℕ) (c : Closure) :
    (runStep s n c).nextId = s.nextId := by
  simp only [runStep]
  split
  · rfl
  · split <;> rfl

theorem runStep_nodes_of_lt (s : Sys) (n : ℕ) (c : Closure) (hlt : stepT s c < 1) :
    (runStep s n c).nodes = updNodes s.nodes n
      { s.nodes n with style := applyWrites (s.nodes n).style (stepWrites s c) } := by
  rw [runStep_lt s n c hlt]

theorem runStep_raf_of_lt (s : Sys) (n : ℕ) (c : Closure) (hlt : stepT s c < 1) :
    (runStep s n c).raf = s.raf ++ [(n, c)] := by
  rw [runStep_lt s n c hlt]

theorem runStep_trace_of_lt (s : Sys) (n : ℕ) (c : Closure) (hlt : stepT s c < 1) :
    (runStep s n c).trace
      = s.trace ++ (Ev.step n c.id (stepT s c) :: wEvs n (stepWrites s c)) := by
  rw [runStep_lt s n c hlt]

theorem runStep_nodes_of_ge_nil (s : Sys) (n : ℕ) (c : Closure) (hlt : ¬ stepT s c < 1)
    (hq2 : (s.nodes n).queue.tail = []) :
    (runStep s n c).nodes = updNodes s.nodes n
      { style := applyWrites (s.nodes n).style (stepWrites s c), queue := [] } := by
  rw [runStep_ge_nil s n c hlt hq2]

theorem runStep_raf_of_ge_nil (s : Sys) (n : ℕ) (c : Closure) (hlt : ¬ stepT s c < 1)
    (hq2 : (s.nodes n).queue.tail = []) :
    (runStep s n c).raf = s.raf := by
  rw [runStep_ge_nil s n c hlt hq2]

theorem runStep_trace_of_ge_nil (s : Sys) (n : ℕ) (c : Closure) (hlt : ¬ stepT s c < 1)
    (hq2 : (s.nodes n).queue.tail = []) :
    (runStep s n c).trace
      = s.trace ++ (Ev.step n c.id (stepT s c) :: (wEvs n (stepWrites s c)
          ++ ((if c.hasCb then [Ev.cb n c.id] else []) ++ [Ev.done n c.id]))) := by
  rw [runStep_ge_nil s n c hlt hq2]
  simp

theorem runStep_nodes_of_ge_cons (s : Sys) (n : ℕ) (c : Closure) (e2 : Entry)
    (tl2 : List Entry) (hlt : ¬ stepT s c < 1) (hq2 : (s.nodes n).queue.tail = e2 :: tl2) :
    (runStep s n c).nodes = updNodes s.nodes n
      { style := applyWrites (s.nodes n).style (stepWrites s c), queue := e2 :: tl2 } := by
  rw [runStep_ge_cons s n c e2 tl2 hlt hq2, activateEntry_nodes]

theorem runStep_raf_of_ge_cons (s : Sys) (n : ℕ) (c : Closure) (e2 : Entry)
    (tl2 : List Entry) (hlt : ¬ stepT s c < 1) (hq2 : (s.nodes n).queue.tail = e2 :: tl2) :
    (runStep s n c).raf = s.raf ++ [(n, ⟨e2.id, s.now, e2.dur, e2.easing,
      materialize (applyWrites (s.nodes n).style (stepWrites s c)) e2.props, e2.hasCb⟩)] := by
  rw [runStep_ge_cons s n c e2 tl2 hlt hq2, activateEntry_raf]
  simp [nextClosure, updNodes_same]

theorem runStep_trace_of_ge_cons (s : Sys) (n : ℕ) (c : Closure) (e2 : Entry)
    (tl2 : List Entry) (hlt : ¬ stepT s c < 1) (hq2 : (s.nodes n).queue.tail = e2 :: tl2) :
    (runStep s n c).trace
      = s.trace ++ (Ev.step n c.id (stepT s c) :: (wEvs n (stepWrites s c)
          ++ ((if c.hasCb then [Ev.cb n c.id] else [])
              ++ ([Ev.done n c.id] ++ [Ev.act n e2.id])))) := by
  rw [runStep_ge_cons s n c e2 tl2 hlt hq2, activateEntry_trace]
  simp


theorem count_cb_wEvs (m i n : ℕ) (ws : List (String × StyleVal)) :
    List.count (Ev.cb m i) (wEvs n ws) = 0 := by
  rw [List.count_eq_zero]
  intro hmem
  rcases mem_wEvs hmem with ⟨p, v, hpv⟩
  simp at hpv

theorem mem_step_evs {ev : Ev} {n cid : ℕ} {t : ℚ} {ws : List (String × StyleVal)}
    {post : List Ev} (h : ev ∈ Ev.step n cid t :: (wEvs n ws ++ post)) :
    ev = Ev.step n cid t ∨ (∃ p v, ev = Ev.write n p v) ∨ ev ∈ post := by
  rcases List.mem_cons.1 h with h | h
  · exact Or.inl h
  · rcases List.mem_append.1 h with h | h
    · exact Or.inr (Or.inl (mem_wEvs h))
    · exact Or.inr (Or.inr h)

theorem mem_cb_post {ev : Ev} {n cid : ℕ} {b : Bool} {post : List Ev}
    (h : ev ∈ (if b then [Ev.cb n cid] else []) ++ post) :
    ev = Ev.cb n cid ∨ ev ∈ post := by
  rcases List.mem_append.1 h with h | h
  · split at h
    · simp only [List.mem_singleton] at h
      exact Or.inl h
    · simp at h
  · exact Or.inr h

theorem count_cb_step_evs (m i n cid : ℕ) (t : ℚ) (ws : List (String × StyleVal))
    (post : List Ev) :
    List.count (Ev.cb m i) (Ev.step n cid t :: (wEvs n ws ++ post))
      = List.count (Ev.cb m i) post := by
  simp [List.count_cons, List.count_append, count_cb_wEvs]

/-- Invariant preservation for a delivered frame callback that re-registers
(raw progress below 1). -/
theorem inv_runStep_lt {s : Sys} {n : ℕ} {c : Closure} (h : Inv s)
    (hnon : ∀ x ∈ s.raf, x.1 ≠ n) (e : Entry) (tl : List Entry)
    (hq : (s.nodes n).queue = e :: tl) (hcid : c.id = e.id) (hcdur : c.dur = e.dur)
    (hchas : c.hasCb = e.hasCb) (hcpl : c.plans.map Prod.fst = e.props.map Prod.fst)
    (hlt : stepT s c < 1) :
    Inv (runStep s n c) := by
  have hein : e ∈ (s.nodes n).queue := by
    rw [hq]
    exact List.mem_cons_self e tl
  have hidlt : c.id < s.nextId := by
    rw [hcid]
    exact h.queueLt n e hein
  have htr := runStep_trace_of_lt s n c hlt
  have hmemE : ∀ ev ∈ Ev.step n c.id (stepT s c) :: wEvs n (stepWrites s c),
      ev = Ev.step n c.id (stepT s c) ∨ ∃ p v, ev = Ev.write n p v := by
    intro ev hev
    rcases List.mem_cons.1 hev with hev | hev
    · exact Or.inl hev
    · exact Or.inr (mem_wEvs hev)
  have hredE : ∀ m2 i2 f2, Ev.enq m2 i2 f2 ∈ (runStep s n c).trace →
      Ev.enq m2 i2 f2 ∈ s.trace := by
    intro m2 i2 f2 hf2
    rw [htr] at hf2
    rcases List.mem_append.1 hf2 with hf2 | hf2
    · exact hf2
    · rcases hmemE _ hf2 with hev | ⟨p, v, hev⟩ <;> simp at hev
  constructor
  case rafNodup =>
    rw [runStep_raf_of_lt s n c hlt]
    refine List.pairwise_append.2 ⟨h.rafNodup, by simp, ?_⟩
    intro a ha b hb
    simp only [List.mem_singleton] at hb
    subst hb
    exact hnon a ha
  case rafHead =>
    intro m c2 hm
    rw [runStep_raf_of_lt s n c hlt] at hm
    rw [runStep_nodes_of_lt s n c hlt]
    rcases List.mem_append.1 hm with hm | hm
    · have hmn : m ≠ n := hnon (m, c2) hm
      obtain ⟨e1, tl1, hq1, h1, h2, h3, h4⟩ := h.rafHead m c2 hm
      exact ⟨e1, tl1, by rw [updNodes_ne _ _ _ _ hmn]; exact hq1, h1, h2, h3, h4⟩
    · simp only [List.mem_singleton, Prod.mk.injEq] at hm
      obtain ⟨hm1, hm2⟩ := hm
      subst hm1
      subst hm2
      rw [updNodes_same]
      refine ⟨e, tl, ?_, hcid, hcdur, hchas, hcpl⟩
      dsimp only
      exact hq
  case queueSorted =>
    intro m
    rw [runStep_nodes_of_lt s n c hlt]
    by_cases hmn : m = n
    · subst hmn
      rw [updNodes_same]
      dsimp only
      exact h.queueSorted m
    · rw [updNodes_ne _ _ _ _ hmn]
      exact h.queueSorted m
  case queueLt =>
    intro m e1 he
    rw [runStep_nodes_of_lt s n c hlt] at he
    rw [runStep_nextId]
    by_cases hmn : m = n
    · subst hmn
      rw [updNodes_same] at he
      dsimp only at he
      exact h.queueLt m e1 he
    · rw [updNodes_ne _ _ _ _ hmn] at he
      exact h.queueLt m e1 he
  case queueEnq =>
    intro m e1 he
    rw [runStep_nodes_of_lt s n c hlt] at he
    rw [htr]
    refine List.mem_append.2 (Or.inl ?_)
    by_cases hmn : m = n
    · subst hmn
      rw [updNodes_same] at he
      dsimp only at he
      exact h.queueEnq m e1 he
    · rw [updNodes_ne _ _ _ _ hmn] at he
      exact h.queueEnq m e1 he
  case evLt =>
    intro ev hev i hrid
    rw [htr] at hev
    rw [runStep_nextId]
    rcases List.mem_append.1 hev with hev | hev
    · exact h.evLt ev hev i hrid
    · rcases hmemE _ hev with hev | ⟨p, v, hev⟩
      · subst hev
        simp only [ridOf, Option.some.injEq] at hrid
        omega
      · subst hev
        simp [ridOf] at hrid
  case enqUnique =>
    intro m i f g hf hg
    exact h.enqUnique m i f g (hredE m i f hf) (hredE m i g hg)
  case enqResolved =>
    intro m i f hf
    have hf2 := hredE m i f hf
    rw [htr]
    rw [runStep_nodes_of_lt s n c hlt]
    rcases h.enqResolved m i f hf2 with ⟨e1, he1, hei⟩ | hd
    · left
      refine ⟨e1, ?_, hei⟩
      by_cases hmn : m = n
      · subst hmn
        rw [updNodes_same]
        dsimp only
        exact he1
      · rw [updNodes_ne _ _ _ _ hmn]
        exact he1
    · exact Or.inr (List.mem_append.2 (Or.inl hd))
  case doneGone =>
    intro m i hd e1 he
    rw [htr] at hd
    rw [runStep_nodes_of_lt s n c hlt] at he
    have hd2 : Ev.done m i ∈ s.trace := by
      rcases List.mem_append.1 hd with hd | hd
      · exact hd
      · rcases hmemE _ hd with hev | ⟨p, v, hev⟩ <;> simp at hev
    by_cases hmn : m = n
    · subst hmn
      rw [updNodes_same] at he
      dsimp only at he
      exact h.doneGone m i hd2 e1 he
    · rw [updNodes_ne _ _ _ _ hmn] at he
      exact h.doneGone m i hd2 e1 he
  case doneCb =>
    intro m i hd hf
    have hf2 := hredE m i true hf
    rw [htr] at hd ⊢
    have hd2 : Ev.done m i ∈ s.trace := by
      rcases List.mem_append.1 hd with hd | hd
      · exact hd
      · rcases hmemE _ hd with hev | ⟨p, v, hev⟩ <;> simp at hev
    exact List.mem_append.2 (Or.inl (h.doneCb m i hd2 hf2))
  case cbDone =>
    intro m i hc
    rw [htr] at hc ⊢
    have hc2 : Ev.cb m i ∈ s.trace := by
      rcases List.mem_append.1 hc with hc | hc
      · exact hc
      · rcases hmemE _ hc with hev | ⟨p, v, hev⟩ <;> simp at hev
    exact List.mem_append.2 (Or.inl (h.cbDone m i hc2))
  case cbOnce =>
    intro m i
    rw [htr, List.count_append]
    have h0 : List.count (Ev.cb m i)
        (Ev.step n c.id (stepT s c) :: wEvs n (stepWrites s c)) = 0 := by
      rw [List.count_eq_zero]
      intro hcon
      rcases hmemE _ hcon with hev | ⟨p, v, hev⟩ <;> simp at hev
    rw [h0]
    simpa using h.cbOnce m i
  case ordStep =>
    intro m i j t hij hf tr1 tr2 hsp
    have hf2 := hredE m i true hf
    rw [htr] at hsp
    rcases split_middle hsp with ⟨l, hold⟩ | ⟨pre, suf, hevs, htr1⟩
    · exact h.ordStep m i j t hij hf2 tr1 l hold
    · cases pre with
      | cons y pre2 =>
          simp only [List.cons_append] at hevs
          injection hevs with h1 h2
          have hmem2 : Ev.step m j t ∈ wEvs n (stepWrites s c) := by
            rw [h2]
            exact List.mem_append_right _ (List.mem_cons_self _ _)
          rcases mem_wEvs hmem2 with ⟨p, v, hpv⟩
          simp at hpv
      | nil =>
          simp only [List.nil_append] at hevs
          injection hevs with h1 h2
          injection h1 with u1 u2 u3
          subst u1
          subst u2
          rw [htr1, List.append_nil]
          rcases h.enqResolved n i true hf2 with ⟨e1, he1, hei⟩ | hd
          · rw [hq] at he1
            have hsorted := h.queueSorted n
            rw [hq] at hsorted
            exact absurd hei (head_min_not_mem hsorted (by omega) e1 he1)
          · exact h.doneCb n i hd hf2
  case ordAct =>
    intro m i j f hij hf tr1 tr2 hsp
    have hf2 := hredE m i f hf
    rw [htr] at hsp
    rcases split_middle hsp with ⟨l, hold⟩ | ⟨pre, suf, hevs, htr1⟩
    · exact h.ordAct m i j f hij hf2 tr1 l hold
    · have hmem2 : Ev.act m j ∈ Ev.step n c.id (stepT s c) :: wEvs n (stepWrites s c) := by
        rw [hevs]
        exact List.mem_append_right _ (List.mem_cons_self _ _)
      rcases hmemE _ hmem2 with hev | ⟨p, v, hev⟩ <;> simp at hev

/-- Invariant preservation for a delivered frame callback that completes its
request with an empty remaining queue. -/
theorem inv_runStep_ge_nil {s : Sys} {n : ℕ} {c : Closure} (h : Inv s)
    (hnon : ∀ x ∈ s.raf, x.1 ≠ n) (e : Entry)
    (hq : (s.nodes n).queue = [e]) (hcid : c.id = e.id) (hcdur : c.dur = e.dur)
    (hchas : c.hasCb = e.hasCb) (hcpl : c.plans.map Prod.fst = e.props.map Prod.fst)
    (hlt : ¬ stepT s c < 1) :
    Inv (runStep s n c) := by
  have hq2 : (s.nodes n).queue.tail = [] := by simp [hq]
  have hein : e ∈ (s.nodes n).queue := by
    rw [hq]
    exact List.mem_cons_self e []
  have hidlt : c.id < s.nextId := by
    rw [hcid]
    exact h.queueLt n e hein
  have htr := runStep_trace_of_ge_nil s n c hlt hq2
  have hmemE : ∀ ev ∈ Ev.step n c.id (stepT s c) :: (wEvs n (stepWrites s c)
      ++ ((if c.hasCb then [Ev.cb n c.id] else []) ++ [Ev.done n c.id])),
      ev = Ev.step n c.id (stepT s c) ∨ (∃ p v, ev = Ev.write n p v)
        ∨ ev = Ev.cb n c.id ∨ ev = Ev.done n c.id := by
    intro ev hev
    rcases mem_step_evs hev with hev | hev | hev
    · exact Or.inl hev
    · exact Or.inr (Or.inl hev)
    · rcases mem_cb_post hev with hev | hev
      · exact Or.inr (Or.inr (Or.inl hev))
      · simp only [List.mem_singleton] at hev
        exact Or.inr (Or.inr (Or.inr hev))
  have hredE : ∀ m2 i2 f2, Ev.enq m2 i2 f2 ∈ (runStep s n c).trace →
      Ev.enq m2 i2 f2 ∈ s.trace := by
    intro m2 i2 f2 hf2
    rw [htr] at hf2
    rcases List.mem_append.1 hf2 with hf2 | hf2
    · exact hf2
    · rcases hmemE _ hf2 with hev | ⟨p, v, hev⟩ | hev | hev <;> simp at hev
  have hhasT : Ev.enq n c.id true ∈ s.trace → c.hasCb = true := by
    intro henq
    have henqE : Ev.enq n c.id e.hasCb ∈ s.trace := by
      rw [hcid]
      exact h.queueEnq n e hein
    have hu := h.enqUnique n c.id true e.hasCb henq henqE
    rw [hchas, ← hu]
  have hcb0 : List.count (Ev.cb n c.id) s.trace = 0 := by
    rw [List.count_eq_zero]
    intro hcon
    have hd := h.cbDone n c.id hcon
    exact h.doneGone n c.id hd e hein hcid.symm
  constructor
  case rafNodup =>
    rw [runStep_raf_of_ge_nil s n c hlt hq2]
    exact h.rafNodup
  case rafHead =>
    intro m c2 hm
    rw [runStep_raf_of_ge_nil s n c hlt hq2] at hm
    rw [runStep_nodes_of_ge_nil s n c hlt hq2]
    have hmn : m ≠ n := hnon (m, c2) hm
    obtain ⟨e1, tl1, hq1, h1, h2, h3, h4⟩ := h.rafHead m c2 hm
    exact ⟨e1, tl1, by rw [updNodes_ne _ _ _ _ hmn]; exact hq1, h1, h2, h3, h4⟩
  case queueSorted =>
    intro m
    rw [runStep_nodes_of_ge_nil s n c hlt hq2]
    by_cases hmn : m = n
    · subst hmn
      rw [updNodes_same]
      simp
    · rw [updNodes_ne _ _ _ _ hmn]
      exact h.queueSorted m
  case queueLt =>
    intro m e1 he
    rw [runStep_nodes_of_ge_nil s n c hlt hq2] at he
    rw [runStep_nextId]
    by_cases hmn : m = n
    · subst hmn
      rw [updNodes_same] at he
      simp at he
    · rw [updNodes_ne _ _ _ _ hmn] at he
      exact h.queueLt m e1 he
  case queueEnq =>
    intro m e1 he
    rw [runStep_nodes_of_ge_nil s n c hlt hq2] at he
    rw [htr]
    refine List.mem_append.2 (Or.inl ?_)
    by_cases hmn : m = n
    · subst hmn
      rw [updNodes_same] at he
      simp at he
    · rw [updNodes_ne _ _ _ _ hmn] at he
      exact h.queueEnq m e1 he
  case evLt =>
    intro ev hev i hrid
    rw [htr] at hev
    rw [runStep_nextId]
    rcases List.mem_append.1 hev with hev | hev
    · exact h.evLt ev hev i hrid
    · rcases hmemE _ hev with hev | ⟨p, v, hev⟩ | hev | hev
      · subst hev
        simp only [ridOf, Option.some.injEq] at hrid
        omega
      · subst hev
        simp [ridOf] at hrid
      · subst hev
        simp only [ridOf, Option.some.injEq] at hrid
        omega
      · subst hev
        simp only [ridOf, Option.some.injEq] at hrid
        omega
  case enqUnique =>
    intro m i f g hf hg
    exact h.enqUnique m i f g (hredE m i f hf) (hredE m i g hg)
  case enqResolved =>
    intro m i f hf
    have hf2 := hredE m i f hf
    rw [htr]
    rw [runStep_nodes_of_ge_nil s n c hlt hq2]
    rcases h.enqResolved m i f hf2 with ⟨e1, he1, hei⟩ | hd
    · by_cases hmn : m = n
      · subst hmn
        rw [hq] at he1
        simp only [List.mem_singleton] at he1
        subst he1
        right
        refine List.mem_append.2 (Or.inr ?_)
        have hic : i = c.id := by omega
        rw [hic]
        simp
      · left
        refine ⟨e1, ?_, hei⟩
        rw [updNodes_ne _ _ _ _ hmn]
        exact he1
    · exact Or.inr (List.mem_append.2 (Or.inl hd))
  case doneGone =>
    intro m i hd e1 he
    rw [runStep_nodes_of_ge_nil s n c hlt hq2] at he
    rw [htr] at hd
    by_cases hmn : m = n
    · subst hmn
      rw [updNodes_same] at he
      simp at he
    · rw [updNodes_ne _ _ _ _ hmn] at he
      have hd2 : Ev.done m i ∈ s.trace := by
        rcases List.mem_append.1 hd with hd | hd
        · exact hd
        · rcases hmemE _ hd with hev | ⟨p, v, hev⟩ | hev | hev
          · simp at hev
          · simp at hev
          · simp at hev
          · injection hev with u1 u2
            exact absurd u1 hmn
      exact h.doneGone m i hd2 e1 he
  case doneCb =>
    intro m i hd hf
    have hf2 := hredE m i true hf
    rw [htr] at hd ⊢
    rcases List.mem_append.1 hd with hd | hd
    · exact List.mem_append.2 (Or.inl (h.doneCb m i hd hf2))
    · rcases hmemE _ hd with hev | ⟨p, v, hev⟩ | hev | hev
      · simp at hev
      · simp at hev
      · simp at hev
      · injection hev with u1 u2
        subst u1
        subst u2
        have hT := hhasT hf2
        refine List.mem_append.2 (Or.inr ?_)
        simp [hT]
  case cbDone =>
    intro m i hc
    rw [htr] at hc ⊢
    rcases List.mem_append.1 hc with hc | hc
    · exact List.mem_append.2 (Or.inl (h.cbDone m i hc))
    · rcases hmemE _ hc with hev | ⟨p, v, hev⟩ | hev | hev
      · simp at hev
      · simp at hev
      · injection hev with u1 u2
        subst u1
        subst u2
        refine List.mem_append.2 (Or.inr ?_)
        simp
      · simp at hev
  case cbOnce =>
    intro m i
    rw [htr, List.count_append, count_cb_step_evs]
    by_cases hmi : m = n ∧ i = c.id
    · obtain ⟨hm1, hm2⟩ := hmi
      subst hm1
      subst hm2
      rw [hcb0]
      cases hcbv : c.hasCb <;> simp [hcbv, List.count_append, List.count_cons]
    · have h0 : List.count (Ev.cb m i)
          ((if c.hasCb then [Ev.cb n c.id] else []) ++ [Ev.done n c.id]) = 0 := by
        rw [List.count_eq_zero]
        intro hcon
        rcases mem_cb_post hcon with hcon | hcon
        · injection hcon with u1 u2
          exact hmi ⟨u1, u2⟩
        · simp at hcon
      rw [h0]
      simpa using h.cbOnce m i
  case ordStep =>
    intro m i j t hij hf tr1 tr2 hsp
    have hf2 := hredE m i true hf
    rw [htr] at hsp
    rcases split_middle hsp with ⟨l, hold⟩ | ⟨pre, suf, hevs, htr1⟩
    · exact h.ordStep m i j t hij hf2 tr1 l hold
    · cases pre with
      | cons y pre2 =>
          simp only [List.cons_append] at hevs
          injection hevs with h1 h2
          have hmem2 : Ev.step m j t ∈ wEvs n (stepWrites s c)
              ++ ((if c.hasCb then [Ev.cb n c.id] else []) ++ [Ev.done n c.id]) := by
            rw [h2]
            exact List.mem_append_right _ (List.mem_cons_self _ _)
          rcases List.mem_append.1 hmem2 with hmem2 | hmem2
          · rcases mem_wEvs hmem2 with ⟨p, v, hpv⟩
            simp at hpv
          · rcases mem_cb_post hmem2 with hmem2 | hmem2
            · simp at hmem2
            · simp at hmem2
      | nil =>
          simp only [List.nil_append] at hevs
          injection hevs with h1 h2
          injection h1 with u1 u2 u3
          subst u1
          subst u2
          rw [htr1, List.append_nil]
          rcases h.enqResolved n i true hf2 with ⟨e1, he1, hei⟩ | hd
          · rw [hq] at he1
            have hsorted := h.queueSorted n
            rw [hq] at hsorted
            exact absurd hei (head_min_not_mem hsorted (by omega) e1 he1)
          · exact h.doneCb n i hd hf2
  case ordAct =>
    intro m i j f hij hf tr1 tr2 hsp
    have hf2 := hredE m i f hf
    rw [htr] at hsp
    rcases split_middle hsp with ⟨l, hold⟩ | ⟨pre, suf, hevs, htr1⟩
    · exact h.ordAct m i j f hij hf2 tr1 l hold
    · have hmem2 : Ev.act m j ∈ Ev.step n c.id (stepT s c) :: (wEvs n (stepWrites s c)
          ++ ((if c.hasCb then [Ev.cb n c.id] else []) ++ [Ev.done n c.id])) := by
        rw [hevs]
        exact List.mem_append_right _ (List.mem_cons_self _ _)
      rcases hmemE _ hmem2 with hev | ⟨p, v, hev⟩ | hev | hev <;> simp at hev

/-- Invariant preservation for a delivered frame callback that completes its
request and synchronously activates the next queued request. -/
theorem inv_runStep_ge_cons {s : Sys} {n : ℕ} {c : Closure} (h : Inv s)
    (hnon : ∀ x ∈ s.raf, x.1 ≠ n) (e e2 : Entry) (tl2 : List Entry)
    (hq : (s.nodes n).queue = e :: e2 :: tl2) (hcid : c.id = e.id) (hcdur : c.dur = e.dur)
    (hchas : c.hasCb = e.hasCb) (hcpl : c.plans.map Prod.fst = e.props.map Prod.fst)
    (hlt : ¬ stepT s c < 1) :
    Inv (runStep s n c) := by
  have hq2 : (s.nodes n).queue.tail = e2 :: tl2 := by simp [hq]
  have hein : e ∈ (s.nodes n).queue := by
    rw [hq]
    exact List.mem_cons_self e (e2 :: tl2)
  have he2in : e2 ∈ (s.nodes n).queue := by
    rw [hq]
    exact List.mem_cons.2 (Or.inr (List.mem_cons_self e2 tl2))
  have hidlt : c.id < s.nextId := by
    rw [hcid]
    exact h.queueLt n e hein
  have hid2lt : e2.id < s.nextId := h.queueLt n e2 he2in
  have htr := runStep_trace_of_ge_cons s n c e2 tl2 hlt hq2
  have hmemE : ∀ ev ∈ Ev.step n c.id (stepT s c) :: (wEvs n (stepWrites s c)
      ++ ((if c.hasCb then [Ev.cb n c.id] else [])
          ++ ([Ev.done n c.id] ++ [Ev.act n e2.id]))),
      ev = Ev.step n c.id (stepT s c) ∨ (∃ p v, ev = Ev.write n p v)
        ∨ ev = Ev.cb n c.id ∨ ev = Ev.done n c.id ∨ ev = Ev.act n e2.id := by
    intro ev hev
    rcases mem_step_evs hev with hev | hev | hev
    · exact Or.inl hev
    · exact Or.inr (Or.inl hev)
    · rcases mem_cb_post hev with hev | hev
      · exact Or.inr (Or.inr (Or.inl hev))
      · rcases List.mem_append.1 hev with hev | hev
        · simp only [List.mem_singleton] at hev
          exact Or.inr (Or.inr (Or.inr (Or.inl hev)))
        · simp only [List.mem_singleton] at hev
          exact Or.inr (Or.inr (Or.inr (Or.inr hev)))
  have hredE : ∀ m2 i2 f2, Ev.enq m2 i2 f2 ∈ (runStep s n c).trace →
      Ev.enq m2 i2 f2 ∈ s.trace := by
    intro m2 i2 f2 hf2
    rw [htr] at hf2
    rcases List.mem_append.1 hf2 with hf2 | hf2
    · exact hf2
    · rcases hmemE _ hf2 with hev | ⟨p, v, hev⟩ | hev | hev | hev <;> simp at hev
  have hhasT : Ev.enq n c.id true ∈ s.trace → c.hasCb = true := by
    intro henq
    have henqE : Ev.enq n c.id e.hasCb ∈ s.trace := by
      rw [hcid]
      exact h.queueEnq n e hein
    have hu := h.enqUnique n c.id true e.hasCb henq henqE
    rw [hchas, ← hu]
  have hcb0 : List.count (Ev.cb n c.id) s.trace = 0 := by
    rw [List.count_eq_zero]
    intro hcon
    have hd := h.cbDone n c.id hcon
    exact h.doneGone n c.id hd e hein hcid.symm
  constructor
  case rafNodup =>
    rw [runStep_raf_of_ge_cons s n c e2 tl2 hlt hq2]
    refine List.pairwise_append.2 ⟨h.rafNodup, by simp, ?_⟩
    intro a ha b hb
    simp only [List.mem_singleton] at hb
    subst hb
    exact hnon a ha
  case rafHead =>
    intro m c2 hm
    rw [runStep_raf_of_ge_cons s n c e2 tl2 hlt hq2] at hm
    rw [runStep_nodes_of_ge_cons s n c e2 tl2 hlt hq2]
    rcases List.mem_append.1 hm with hm | hm
    · have hmn : m ≠ n := hnon (m, c2) hm
      obtain ⟨e1, tl1, hq1, h1, h2, h3, h4⟩ := h.rafHead m c2 hm
      exact ⟨e1, tl1, by rw [updNodes_ne _ _ _ _ hmn]; exact hq1, h1, h2, h3, h4⟩
    · simp only [List.mem_singleton, Prod.mk.injEq] at hm
      obtain ⟨hm1, hm2⟩ := hm
      subst hm1
      subst hm2
      rw [updNodes_same]
      refine ⟨e2, tl2, rfl, rfl, rfl, rfl, ?_⟩
      exact materialize_keys _ _
  case queueSorted =>
    intro m
    rw [runStep_nodes_of_ge_cons s n c e2 tl2 hlt hq2]
    by_cases hmn : m = n
    · subst hmn
      rw [updNodes_same]
      have hsorted := h.queueSorted m
      rw [hq] at hsorted
      exact (List.pairwise_cons.1 hsorted).2
    · rw [updNodes_ne _ _ _ _ hmn]
      exact h.queueSorted m
  case queueLt =>
    intro m e1 he
    rw [runStep_nodes_of_ge_cons s n c e2 tl2 hlt hq2] at he
    rw [runStep_nextId]
    by_cases hmn : m = n
    · subst hmn
      rw [updNodes_same] at he
      dsimp only at he
      refine h.queueLt m e1 ?_
      rw [hq]
      exact List.mem_cons.2 (Or.inr he)
    · rw [updNodes_ne _ _ _ _ hmn] at he
      exact h.queueLt m e1 he
  case queueEnq =>
    intro m e1 he
    rw [runStep_nodes_of_ge_cons s n c e2 tl2 hlt hq2] at he
    rw [htr]
    refine List.mem_append.2 (Or.inl ?_)
    by_cases hmn : m = n
    · subst hmn
      rw [updNodes_same] at he
      dsimp only at he
      refine h.queueEnq m e1 ?_
      rw [hq]
      exact List.mem_cons.2 (Or.inr he)
    · rw [updNodes_ne _ _ _ _ hmn] at he
      exact h.queueEnq m e1 he
  case evLt =>
    intro ev hev i hrid
    rw [htr] at hev
    rw [runStep_nextId]
    rcases List.mem_append.1 hev with hev | hev
    · exact h.evLt ev hev i hrid
    · rcases hmemE _ hev with hev | ⟨p, v, hev⟩ | hev | hev | hev
      · subst hev
        simp only [ridOf, Option.some.injEq] at hrid
        omega
      · subst hev
        simp [ridOf] at hrid
      · subst hev
        simp only [ridOf, Option.some.injEq] at hrid
        omega
      · subst hev
        simp only [ridOf, Option.some.injEq] at hrid
        omega
      · subst hev
        simp only [ridOf, Option.some.injEq] at hrid
        omega
  case enqUnique =>
    intro m i f g hf hg
    exact h.enqUnique m i f g (hredE m i f hf) (hredE m i g hg)
  case enqResolved =>
    intro m i f hf
    have hf2 := hredE m i f hf
    rw [htr]
    rw [runStep_nodes_of_ge_cons s n c e2 tl2 hlt hq2]
    rcases h.enqResolved m i f hf2 with ⟨e1, he1, hei⟩ | hd
    · by_cases hmn : m = n
      · subst hmn
        rw [hq] at he1
        rcases List.mem_cons.1 he1 with he1 | he1
        · subst he1
          right
          refine List.mem_append.2 (Or.inr ?_)
          have hic : i = c.id := by omega
          rw [hic]
          simp
        · left
          refine ⟨e1, ?_, hei⟩
          rw [updNodes_same]
          exact he1
      · left
        refine ⟨e1, ?_, hei⟩
        rw [updNodes_ne _ _ _ _ hmn]
        exact he1
    · exact Or.inr (List.mem_append.2 (Or.inl hd))
  case doneGone =>
    intro m i hd e1 he
    rw [runStep_nodes_of_ge_cons s n c e2 tl2 hlt hq2] at he
    rw [htr] at hd
    by_cases hmn : m = n
    · subst hmn
      rw [updNodes_same] at he
      dsimp only at he
      rcases List.mem_append.1 hd with hd | hd
      · refine h.doneGone m i hd e1 ?_
        rw [hq]
        exact List.mem_cons.2 (Or.inr he)
      · rcases hmemE _ hd with hev | ⟨p, v, hev⟩ | hev | hev | hev
        · simp at hev
        · simp at hev
        · simp at hev
        · injection hev with u1 u2
          subst u2
          have hsorted := h.queueSorted m
          rw [hq] at hsorted
          have hlt2 := (List.pairwise_cons.1 hsorted).1 e1 he
          omega
        · simp at hev
    · rw [updNodes_ne _ _ _ _ hmn] at he
      have hd2 : Ev.done m i ∈ s.trace := by
        rcases List.mem_append.1 hd with hd | hd
        · exact hd
        · rcases hmemE _ hd with hev | ⟨p, v, hev⟩ | hev | hev | hev
          · simp at hev
          · simp at hev
          · simp at hev
          · injection hev with u1 u2
            exact absurd u1 hmn
          · simp at hev
      exact h.doneGone m i hd2 e1 he
  case doneCb =>
    intro m i hd hf
    have hf2 := hredE m i true hf
    rw [htr] at hd ⊢
    rcases List.mem_append.1 hd with hd | hd
    · exact List.mem_append.2 (Or.inl (h.doneCb m i hd hf2))
    · rcases hmemE _ hd with hev | ⟨p, v, hev⟩ | hev | hev | hev
      · simp at hev
      · simp at hev
      · simp at hev
      · injection hev with u1 u2
        subst u1
        subst u2
        have hT := hhasT hf2
        refine List.mem_append.2 (Or.inr ?_)
        simp [hT]
      · simp at hev
  case cbDone =>
    intro m i hc
    rw [htr] at hc ⊢
    rcases List.mem_append.1 hc with hc | hc
    · exact List.mem_append.2 (Or.inl (h.cbDone m i hc))
    · rcases hmemE _ hc with hev | ⟨p, v, hev⟩ | hev | hev | hev
      · simp at hev
      · simp at hev
      · injection hev with u1 u2
        subst u1
        subst u2
        refine List.mem_append.2 (Or.inr ?_)
        simp
      · simp at hev
      · simp at hev
  case cbOnce =>
    intro m i
    rw [htr, List.count_append, count_cb_step_evs]
    by_cases hmi : m = n ∧ i = c.id
    · obtain ⟨hm1, hm2⟩ := hmi
      subst hm1
      subst hm2
      rw [hcb0]
      cases hcbv : c.hasCb <;> simp [hcbv, List.count_append, List.count_cons]
    · have h0 : List.count (Ev.cb m i)
          ((if c.hasCb then [Ev.cb n c.id] else [])
            ++ ([Ev.done n c.id] ++ [Ev.act n e2.id])) = 0 := by
        rw [List.count_eq_zero]
        intro hcon
        rcases mem_cb_post hcon with hcon | hcon
        · injection hcon with u1 u2
          exact hmi ⟨u1, u2⟩
        · simp at hcon
      rw [h0]
      simpa using h.cbOnce m i
  case ordStep =>
    intro m i j t hij hf tr1 tr2 hsp
    have hf2 := hredE m i true hf
    rw [htr] at hsp
    rcases split_middle hsp with ⟨l, hold⟩ | ⟨pre, suf, hevs, htr1⟩
    · exact h.ordStep m i j t hij hf2 tr1 l hold
    · cases pre with
      | cons y pre2 =>
          simp only [List.cons_append] at hevs
          injection hevs with h1 h2
          have hmem2 := List.mem_append_right pre2 (List.mem_cons_self (Ev.step m j t) suf)
          rw [← h2] at hmem2
          rcases List.mem_append.1 hmem2 with hmem2 | hmem2
          · rcases mem_wEvs hmem2 with ⟨p, v, hpv⟩
            simp at hpv
          · rcases mem_cb_post hmem2 with hmem2 | hmem2
            · simp at hmem2
            · simp at hmem2
      | nil =>
          simp only [List.nil_append] at hevs
          injection hevs with h1 h2
          injection h1 with u1 u2 u3
          subst u1
          subst u2
          rw [htr1, List.append_nil]
          rcases h.enqResolved n i true hf2 with ⟨e1, he1, hei⟩ | hd
          · rw [hq] at he1
            have hsorted := h.queueSorted n
            rw [hq] at hsorted
            exact absurd hei (head_min_not_mem hsorted (by omega) e1 he1)
          · exact h.doneCb n i hd hf2
  case ordAct =>
    intro m i j f hij hf tr1 tr2 hsp
    have hf2 := hredE m i f hf
    rw [htr] at hsp
    rcases split_middle hsp with ⟨l, hold⟩ | ⟨pre, suf, hevs, htr1⟩
    · exact h.ordAct m i j f hij hf2 tr1 l hold
    · have hevs2 : (Ev.step n c.id (stepT s c) :: (wEvs n (stepWrites s c)
          ++ ((if c.hasCb then [Ev.cb n c.id] else []) ++ [Ev.done n c.id])))
          ++ [Ev.act n e2.id] = pre ++ Ev.act m j :: suf := by
        rw [← hevs]
        simp
      obtain ⟨hpre, hact, hsuf⟩ := act_split
        (Ev.step n c.id (stepT s c) :: (wEvs n (stepWrites s c)
          ++ ((if c.hasCb then [Ev.cb n c.id] else []) ++ [Ev.done n c.id])))
        (Ev.act n e2.id)
        (by
          intro n2 i2 hmem
          rcases List.mem_cons.1 hmem with hmem | hmem
          · simp at hmem
          · rcases List.mem_append.1 hmem with hmem | hmem
            · rcases mem_wEvs hmem with ⟨p, v, hpv⟩
              simp at hpv
            · rcases mem_cb_post hmem with hmem | hmem
              · simp at hmem
              · simp at hmem)
        hevs2
      injection hact with u1 u2
      subst u1
      subst u2
      rw [htr1, hpre]
      rcases h.enqResolved n i f hf2 with ⟨e1, he1, hei⟩ | hd
      · rw [hq] at he1
        rcases List.mem_cons.1 he1 with he1 | he1
        · subst he1
          refine List.mem_append.2 (Or.inr ?_)
          have hic : i = c.id := by omega
          rw [hic]
          simp
        · rcases List.mem_cons.1 he1 with he1 | he1
          · subst he1
            omega
          · have hsorted := h.queueSorted n
            rw [hq] at hsorted
            have hmid := (List.pairwise_cons.1 (List.pairwise_cons.1 hsorted).2).1 e1 he1
            omega
      · exact List.mem_append.2 (Or.inl hd)

/-- Invariant preservation for the `step` body, for the pulled closure of a
node whose queue head it drives. -/
theorem inv_runStep {s : Sys} {n : ℕ} {c : Closure} (h : Inv s)
    (hnon : ∀ x ∈ s.raf, x.1 ≠ n) (e : Entry) (tl : List Entry)
    (hq : (s.nodes n).queue = e :: tl) (hcid : c.id = e.id) (hcdur : c.dur = e.dur)
    (hchas : c.hasCb = e.hasCb) (hcpl : c.plans.map Prod.fst = e.props.map Prod.fst) :
    Inv (runStep s n c) := by
  by_cases hlt : stepT s c < 1
  · exact inv_runStep_lt h hnon e tl hq hcid hcdur hchas hcpl hlt
  · cases tl with
    | nil => exact inv_runStep_ge_nil h hnon e hq hcid hcdur hchas hcpl hlt
    | cons e2 tl2 => exact inv_runStep_ge_cons h hnon e e2 tl2 hq hcid hcdur hchas hcpl hlt

/-- Invariant preservation for one frame delivery. -/
theorem inv_frameStep {s : Sys} (h : Inv s) (n : ℕ) (tF : ℚ) :
    Inv (frameStep s n tF) := by
  cases hp : pullClosure s.raf n with
  | none =>
      rw [frameStep_none s n tF hp]
      exact inv_drop_raf h tF (fun x hx => hx) h.rafNodup
  | some pr =>
      obtain ⟨c, rest⟩ := pr
      rw [frameStep_some s n tF c rest hp]
      have h1 : Inv { s with now := tF, raf := rest } :=
        inv_drop_raf h tF (pullClosure_rest_sub hp) (pullClosure_rest_nodup h.rafNodup hp)
      have hnon1 : ∀ x ∈ ({ s with now := tF, raf := rest } : Sys).raf, x.1 ≠ n :=
        pullClosure_rest_none h.rafNodup hp
      obtain ⟨e, tl, hq, hcid, hcdur, hchas, hcpl⟩ := h.rafHead n c (pullClosure_mem hp)
      exact inv_runStep h1 hnon1 e tl hq hcid hcdur hchas hcpl

/-- Every reachable state satisfies the invariant. -/
theorem reachable_inv {s : Sys} (h : Reachable s) : Inv s := by
  induction h with
  | init styles => exact inv_init styles
  | animate h2 n props dur easing hasCb tA ht ih =>
      exact inv_animate _ n props dur easing hasCb tA ih
  | frame h2 n tF ht ih => exact inv_frameStep ih n tF


theorem frameStep_now (s : Sys) (n : ℕ) (tF : ℚ) : (frameStep s n tF).now = tF := by
  simp only [frameStep]
  split
  · rfl
  · rw [runStep_now]

theorem animate_nodes_ne (s : Sys) (n : ℕ) (props : List (String × String)) (dur : ℚ)
    (easing : ℚ → ℚ) (hasCb : Bool) (tA : ℚ) (m : ℕ) (hmn : m ≠ n) :
    (animate s n props dur easing hasCb tA).nodes m = s.nodes m := by
  by_cases hq : (s.nodes n).queue = []
  · rw [animate_nodes_of_empty s n props dur easing hasCb tA hq, updNodes_ne _ _ _ _ hmn]
  · rw [animate_nodes_of_nonempty s n props dur easing hasCb tA hq, updNodes_ne _ _ _ _ hmn]

theorem runStep_nodes_ne (s : Sys) (n : ℕ) (c : Closure) (m : ℕ) (hmn : m ≠ n) :
    (runStep s n c).nodes m = s.nodes m := by
  by_cases hlt : stepT s c < 1
  · rw [runStep_nodes_of_lt s n c hlt, updNodes_ne _ _ _ _ hmn]
  · cases hqt : (s.nodes n).queue.tail with
    | nil => rw [runStep_nodes_of_ge_nil s n c hlt hqt, updNodes_ne _ _ _ _ hmn]
    | cons e2 tl2 => rw [runStep_nodes_of_ge_cons s n c e2 tl2 hlt hqt, updNodes_ne _ _ _ _ hmn]

theorem frameStep_nodes_ne (s : Sys) (n : ℕ) (tF : ℚ) (m : ℕ) (hmn : m ≠ n) :
    (frameStep s n tF).nodes m = s.nodes m := by
  cases hp : pullClosure s.raf n with
  | none => rw [frameStep_none s n tF hp]
  | some pr =>
      obtain ⟨c, rest⟩ := pr
      rw [frameStep_some s n tF c rest hp]
      exact runStep_nodes_ne _ _ _ _ hmn

/-- The per-node style after one delivered step: the step's writes applied
in loop order. -/
theorem runStep_style (s : Sys) (n : ℕ) (c : Closure) :
    ((runStep s n c).nodes n).style = applyWrites (s.nodes n).style (stepWrites s c) := by
  by_cases hlt : stepT s c < 1
  · rw [runStep_nodes_of_lt s n c hlt, updNodes_same]
  · cases hqt : (s.nodes n).queue.tail with
    | nil => rw [runStep_nodes_of_ge_nil s n c hlt hqt, updNodes_same]
    | cons e2 tl2 => rw [runStep_nodes_of_ge_cons s n c e2 tl2 hlt hqt, updNodes_same]

theorem styleGet_styleSet_ne (st : List (String × String)) (q v p : String)
    (hpq : ¬ p = q) : styleGet (styleSet st q v) p = styleGet st p := by
  induction st with
  | nil =>
      simp only [styleSet, styleGet]
      rw [if_neg (fun hc => hpq hc.symm)]
  | cons a st ih =>
      by_cases haq : a.1 = q
      · have h1 : styleSet (a :: st) q v = (q, v) :: st := by
          simp only [styleSet, if_pos haq]
        rw [h1]
        simp only [styleGet]
        rw [if_neg (fun hc => hpq hc.symm), if_neg (fun hc => hpq (by rw [← hc]; exact haq))]
      · have h1 : styleSet (a :: st) q v = a :: styleSet st q v := by
          simp only [styleSet, if_neg haq]
        rw [h1]
        simp only [styleGet]
        by_cases hap : a.1 = p
        · rw [if_pos hap, if_pos hap]
        · rw [if_neg hap, if_neg hap]
          exact ih

theorem styleGet_applyWrites_ne (ws : List (String × StyleVal))
    (st : List (String × String)) (p : String) :
    (∀ w ∈ ws, ¬ p = w.1) → styleGet (applyWrites st ws) p = styleGet st p := by
  induction ws generalizing st with
  | nil => intro hp; rfl
  | cons w ws ih =>
      intro hp
      have h1 : ¬ p = w.1 := hp w (List.mem_cons_self _ _)
      have h2 : ∀ w2 ∈ ws, ¬ p = w2.1 := fun w2 hw2 => hp w2 (List.mem_cons.2 (Or.inr hw2))
      calc styleGet (applyWrites st (w :: ws)) p
          = styleGet (applyWrites (styleSet st w.1 (renderStyle w.2)) ws) p := rfl
        _ = styleGet (styleSet st w.1 (renderStyle w.2)) p := ih _ h2
        _ = styleGet st p := styleGet_styleSet_ne _ _ _ _ h1

theorem writesOf_keys_sub (plans : List (String × Plan)) (t eased : ℚ) :
    ∀ pv ∈ writesOf plans t eased, pv.1 ∈ plans.map Prod.fst := by
  intro pv hpv
  unfold writesOf at hpv
  rcases List.mem_filterMap.1 hpv with ⟨pp, hpp, hmap⟩
  rcases Option.map_eq_some'.1 hmap with ⟨v2, hv2, hpv2⟩
  subst hpv2
  exact List.mem_map.2 ⟨pp, hpp, rfl⟩

theorem write_mem_wEvs {m : ℕ} {p : String} {v : StyleVal} {n : ℕ}
    {ws : List (String × StyleVal)} (h : Ev.write m p v ∈ wEvs n ws) :
    m = n ∧ (p, v) ∈ ws := by
  unfold wEvs at h
  rcases List.mem_map.1 h with ⟨w, hw, heq⟩
  obtain ⟨w1, w2⟩ := w
  injection heq.symm with u1 u2 u3
  subst u2
  subst u3
  exact ⟨u1, hw⟩

/-- The `write` events a delivered step adds are all on the stepped node and
carry keys of the closure's plans. -/
theorem runStep_write_events (s : Sys) (n : ℕ) (c : Closure) (m : ℕ) (p : String)
    (v : StyleVal) (hw : Ev.write m p v ∈ (runStep s n c).trace) :
    Ev.write m p v ∈ s.trace ∨ (m = n ∧ p ∈ c.plans.map Prod.fst) := by
  have hkey : (p, v) ∈ stepWrites s c → p ∈ c.plans.map Prod.fst := by
    intro hpv
    exact writesOf_keys_sub c.plans _ _ (p, v) hpv
  by_cases hlt : stepT s c < 1
  · rw [runStep_trace_of_lt s n c hlt] at hw
    rcases List.mem_append.1 hw with hw | hw
    · exact Or.inl hw
    · rcases List.mem_cons.1 hw with hw | hw
      · simp at hw
      · obtain ⟨hm, hpv⟩ := write_mem_wEvs hw
        exact Or.inr ⟨hm, hkey hpv⟩
  · cases hqt : (s.nodes n).queue.tail with
    | nil =>
        rw [runStep_trace_of_ge_nil s n c hlt hqt] at hw
        rcases List.mem_append.1 hw with hw | hw
        · exact Or.inl hw
        · rcases List.mem_cons.1 hw with hw | hw
          · simp at hw
          · rcases List.mem_append.1 hw with hw | hw
            · obtain ⟨hm, hpv⟩ := write_mem_wEvs hw
              exact Or.inr ⟨hm, hkey hpv⟩
            · rcases mem_cb_post hw with hw | hw
              · simp at hw
              · simp at hw
    | cons e2 tl2 =>
        rw [runStep_trace_of_ge_cons s n c e2 tl2 hlt hqt] at hw
        rcases List.mem_append.1 hw with hw | hw
        · exact Or.inl hw
        · rcases List.mem_cons.1 hw with hw | hw
          · simp at hw
          · rcases List.mem_append.1 hw with hw | hw
            · obtain ⟨hm, hpv⟩ := write_mem_wEvs hw
              exact Or.inr ⟨hm, hkey hpv⟩
            · rcases mem_cb_post hw with hw | hw
              · simp at hw
              · simp at hw

/-- At most one registered closure per node, from the registry's pairwise
distinct keys. -/
theorem countP_key_le_one {l : List (ℕ × Closure)}
    (h : l.Pairwise (fun a b => a.1 ≠ b.1)) (n : ℕ) :
    l.countP (fun x => decide (x.1 = n)) ≤ 1 := by
  induction l with
  | nil => simp
  | cons a l ih =>
      rw [List.pairwise_cons] at h
      rw [List.countP_cons]
      by_cases ha : a.1 = n
      · have hz : l.countP (fun x => decide (x.1 = n)) = 0 := by
          rw [List.countP_eq_zero]
          intro x hx
          simp only [decide_eq_true_eq]
          intro hxn
          exact h.1 x hx (by rw [ha, hxn])
        rw [hz]
        simp [ha]
      · have hle := ih h.2
        simp only [ha, decide_False, if_false]
        simpa using hle


/-! Facts about the concrete runs. -/

theorem wS1_raf : wS1.raf = [(0, cW1)] := rfl

theorem wS1_trace : wS1.trace = [Ev.enq 0 0 true, Ev.act 0 0] := rfl

theorem wS1_queue : (wS1.nodes 0).queue = [(⟨0, [], 100, id, true⟩ : Entry)] := rfl

theorem wS2_raf : wS2.raf = [(0, cW1)] := rfl

theorem wS2_trace : wS2.trace = [Ev.enq 0 0 true, Ev.act 0 0, Ev.enq 0 1 false] := rfl

theorem wS2_pull : pullClosure wS2.raf 0 = some (cW1, []) := by
  rw [wS2_raf]
  simp [pullClosure]

theorem wS3_eq : wS3 = runStep { wS2 with now := 100, raf := [] } 0 cW1 := by
  show frameStep wS2 0 100 = _
  rw [frameStep_some wS2 0 100 cW1 [] wS2_pull]

theorem wS3_stepT : stepT { wS2 with now := 100, raf := [] } cW1 = 1 := by
  norm_num [stepT, rawT, cW1, min_def]

theorem wS3_nlt : ¬ stepT { wS2 with now := 100, raf := [] } cW1 < 1 := by
  rw [wS3_stepT]
  exact lt_irrefl 1

theorem wS3_tail : (({ wS2 with now := 100, raf := [] } : Sys).nodes 0).queue.tail
    = [(⟨1, [], 100, id, false⟩ : Entry)] := rfl

theorem wS3_trace : wS3.trace = [Ev.enq 0 0 true, Ev.act 0 0, Ev.enq 0 1 false,
    Ev.step 0 0 1, Ev.cb 0 0, Ev.done 0 0, Ev.act 0 1] := by
  rw [wS3_eq, runStep_trace_of_ge_cons _ _ _ _ _ wS3_nlt wS3_tail, wS3_stepT]
  rfl

theorem wS3_raf : wS3.raf = [(0, cW2)] := by
  rw [wS3_eq, runStep_raf_of_ge_cons _ _ _ _ _ wS3_nlt wS3_tail]
  rfl

theorem wS3_pull : pullClosure wS3.raf 0 = some (cW2, []) := by
  rw [wS3_raf]
  simp [pullClosure]

theorem wS4_eq : wS4 = runStep { wS3 with now := 116, raf := [] } 0 cW2 := by
  show frameStep wS3 0 116 = _
  rw [frameStep_some wS3 0 116 cW2 [] wS3_pull]

theorem wS4_stepT : stepT { wS3 with now := 116, raf := [] } cW2 = 4/25 := by
  norm_num [stepT, rawT, cW2, min_def]

theorem wS4_lt : stepT { wS3 with now := 116, raf := [] } cW2 < 1 := by
  rw [wS4_stepT]
  norm_num

theorem wS4_trace : wS4.trace = [Ev.enq 0 0 true, Ev.act 0 0, Ev.enq 0 1 false,
    Ev.step 0 0 1, Ev.cb 0 0, Ev.done 0 0, Ev.act 0 1, Ev.step 0 1 (4/25)] := by
  rw [wS4_eq, runStep_trace_of_lt _ _ _ wS4_lt, wS4_stepT]
  dsimp only
  rw [wS3_trace]
  rfl

theorem wS4_reachable : Reachable wS4 := by
  have r0 := Reachable.init wStyles
  have r1 := Reachable.animate r0 0 [] 100 id true 0 (by norm_num [Sys.init])
  have r2 := Reachable.animate r1 0 [] 100 id false 0 (by rw [animate_now])
  have r3 := Reachable.frame r2 0 100 (by rw [animate_now]; norm_num)
  exact Reachable.frame r3 0 116 (by rw [frameStep_now]; norm_num)

theorem w8_mat : materialize (w8S0.nodes 0).style [("left", "100px")]
    = [("left", Plan.numericP 0 100 "px")] := by decide

theorem w8S1_raf : w8S1.raf = [(0, cW8)] := by
  show (animate w8S0 0 [("left", "100px")] 400 id false 0).raf = _
  rw [animate_raf_of_empty w8S0 0 [("left", "100px")] 400 id false 0 rfl, w8_mat]
  rfl

theorem w8S1_trace : w8S1.trace = [Ev.enq 0 0 false, Ev.act 0 0] := rfl

theorem w8S1_style : (w8S1.nodes 0).style = [("left", "0px")] := rfl

theorem w8S1_queue : (w8S1.nodes 0).queue
    = [(⟨0, [("left", "100px")], 400, id, false⟩ : Entry)] := rfl

theorem w8_pull : pullClosure w8S1.raf 0 = some (cW8, []) := by
  rw [w8S1_raf]
  simp [pullClosure]

theorem w8S2_eq : w8S2 = runStep { w8S1 with now := 16, raf := [] } 0 cW8 := by
  show frameStep w8S1 0 16 = _
  rw [frameStep_some w8S1 0 16 cW8 [] w8_pull]

theorem w8_stepT : stepT { w8S1 with now := 16, raf := [] } cW8 = 1/25 := by
  norm_num [stepT, rawT, cW8, min_def]

theorem w8_lt : stepT { w8S1 with now := 16, raf := [] } cW8 < 1 := by
  rw [w8_stepT]
  norm_num

theorem w8_writes : stepWrites { w8S1 with now := 16, raf := [] } cW8
    = [("left", StyleVal.numStr 4 "px")] := by
  have he : cW8.easing (stepT { w8S1 with now := 16, raf := [] } cW8) = 1/25 := w8_stepT
  show writesOf cW8.plans (stepT { w8S1 with now := 16, raf := [] } cW8)
      (cW8.easing (stepT { w8S1 with now := 16, raf := [] } cW8)) = _
  rw [he, w8_stepT]
  show [("left", StyleVal.numStr (0 + (100 - 0) * (1/25)) "px")]
      = [("left", StyleVal.numStr 4 "px")]
  norm_num

theorem w8S2_trace : w8S2.trace = [Ev.enq 0 0 false, Ev.act 0 0,
    Ev.step 0 0 (1/25), Ev.write 0 "left" (StyleVal.numStr 4 "px")] := by
  rw [w8S2_eq, runStep_trace_of_lt _ _ _ w8_lt, w8_writes, w8_stepT]
  dsimp only
  rw [w8S1_trace]
  rfl

theorem w9S1_raf : w9S1.raf = [(0, cW9)] := rfl

theorem w9S1_trace : w9S1.trace = [Ev.enq 0 0 true, Ev.act 0 0] := rfl

theorem w9_pull : pullClosure w9S1.raf 0 = some (cW9, []) := by
  rw [w9S1_raf]
  simp [pullClosure]

theorem w9S2_eq : w9S2 = runStep { w9S1 with now := 16, raf := [] } 0 cW9 := by
  show frameStep w9S1 0 16 = _
  rw [frameStep_some w9S1 0 16 cW9 [] w9_pull]

theorem w9_stepT : stepT { w9S1 with now := 16, raf := [] } cW9 = -(4/25) := by
  norm_num [stepT, rawT, cW9, min_def]

theorem w9_lt : stepT { w9S1 with now := 16, raf := [] } cW9 < 1 := by
  rw [w9_stepT]
  norm_num

theorem w9S2_trace : w9S2.trace
    = [Ev.enq 0 0 true, Ev.act 0 0, Ev.step 0 0 (-(4/25))] := by
  rw [w9S2_eq, runStep_trace_of_lt _ _ _ w9_lt, w9_stepT]
  dsimp only
  rw [w9S1_trace]
  rfl

theorem w9S2_raf : w9S2.raf = [(0, cW9)] := by
  rw [w9S2_eq, runStep_raf_of_lt _ _ _ w9_lt]
  rfl

theorem w9S2_queue : (w9S2.nodes 0).queue = [(⟨0, [], -100, id, true⟩ : Entry)] := by
  rw [w9S2_eq, runStep_nodes_of_lt _ _ _ w9_lt, updNodes_same]
  rfl


/-! # Claims C1, C2, C8, C9, C10 -/

/-- C1: for every node `n` and every pair of requests `i` enqueued before
`j` on `n` (`i < j` in the machine's id order), if `i` carried a completion
callback then in every reachable state whose trace evaluates a drive-loop
step of `j`, the callback of `i` was invoked before that step and exactly
once overall; and `j` was promoted (its `act` event) only after `i`
completed (its `done` event). -/
theorem fifo_callback_order {s : Sys} (h : Reachable s) (n i j : ℕ)
    (hij : i < j) (henq : Ev.enq n i true ∈ s.trace) :
    (∀ t tr1 tr2, s.trace = tr1 ++ Ev.step n j t :: tr2 →
        Ev.cb n i ∈ tr1 ∧ s.trace.count (Ev.cb n i) = 1)
      ∧ (∀ tr1 tr2, s.trace = tr1 ++ Ev.act n j :: tr2 → Ev.done n i ∈ tr1) := by
  have hinv := reachable_inv h
  constructor
  · intro t tr1 tr2 hsp
    have hcb := hinv.ordStep n i j t hij henq tr1 tr2 hsp
    refine ⟨hcb, ?_⟩
    have hmem : Ev.cb n i ∈ s.trace := by
      rw [hsp]
      exact List.mem_append.2 (Or.inl hcb)
    have h1 := List.count_pos_iff.2 hmem
    have h2 := hinv.cbOnce n i
    omega
  · intro tr1 tr2 hsp
    exact hinv.ordAct n i j true hij henq tr1 tr2 hsp

theorem fifo_callback_order_witness :
    Ev.cb 0 0 ∈ [Ev.enq 0 0 true, Ev.act 0 0, Ev.enq 0 1 false, Ev.step 0 0 1,
        Ev.cb 0 0, Ev.done 0 0, Ev.act 0 1]
      ∧ wS4.trace.count (Ev.cb 0 0) = 1
      ∧ Ev.done 0 0 ∈ [Ev.enq 0 0 true, Ev.act 0 0, Ev.enq 0 1 false, Ev.step 0 0 1,
          Ev.cb 0 0, Ev.done 0 0] := by
  have happ := fifo_callback_order wS4_reachable 0 0 1 (by norm_num)
      (by rw [wS4_trace]; simp)
  have h1 := happ.1 (4/25)
      [Ev.enq 0 0 true, Ev.act 0 0, Ev.enq 0 1 false, Ev.step 0 0 1,
        Ev.cb 0 0, Ev.done 0 0, Ev.act 0 1] []
      (by simp [wS4_trace])
  have h2 := happ.2
      [Ev.enq 0 0 true, Ev.act 0 0, Ev.enq 0 1 false, Ev.step 0 0 1,
        Ev.cb 0 0, Ev.done 0 0]
      [Ev.step 0 1 (4/25)]
      (by simp [wS4_trace])
  exact ⟨h1.1, h1.2, h2⟩

/-- C2: in every reachable state, at most one closure per node is registered
with the frame scheduler (at most one entry per node is actively driving
writes), the registered closure drives the node's queue head, and the
entries of different nodes are independent: an `animate` call or a frame
delivery for node `n` leaves every other node's state unchanged. -/
theorem single_active_per_node {s : Sys} (h : Reachable s) (n : ℕ) :
    s.raf.countP (fun x => decide (x.1 = n)) ≤ 1
      ∧ (∀ c, (n, c) ∈ s.raf → ∃ e tl, (s.nodes n).queue = e :: tl ∧ c.id = e.id)
      ∧ (∀ props dur easing hasCb tA m, m ≠ n →
          (animate s n props dur easing hasCb tA).nodes m = s.nodes m)
      ∧ (∀ tF m, m ≠ n → (frameStep s n tF).nodes m = s.nodes m) := by
  have hinv := reachable_inv h
  refine ⟨countP_key_le_one hinv.rafNodup n, ?_, ?_, ?_⟩
  · intro c hc
    obtain ⟨e, tl, hq, h1, _, _, _⟩ := hinv.rafHead n c hc
    exact ⟨e, tl, hq, h1⟩
  · intro props dur easing hasCb tA m hmn
    exact animate_nodes_ne s n props dur easing hasCb tA m hmn
  · intro tF m hmn
    exact frameStep_nodes_ne s n tF m hmn

theorem single_active_per_node_witness :
    wS4.raf.countP (fun x => decide (x.1 = 0)) ≤ 1
      ∧ (frameStep wS4 0 200).nodes 7 = wS4.nodes 7 := by
  have happ := single_active_per_node wS4_reachable 0
  exact ⟨happ.1, happ.2.2.2 200 7 (by norm_num)⟩

/-- C8 counterexample: `animate({ left: "100px" }, 400)` on an empty queue
activates the request synchronously, but performs no style write during the
call — the trace of the call holds only the `enq` and `act` events and the
`left` style still reads `0px`; the first write appears only at the first
frame delivery. -/
theorem animate_no_sync_write_counterexample :
    (∀ ev ∈ w8S1.trace, ∀ m p v, ev ≠ Ev.write m p v)
      ∧ styleGet (w8S1.nodes 0).style "left" = "0px"
      ∧ Ev.write 0 "left" (StyleVal.numStr 4 "px") ∈ w8S2.trace := by
  refine ⟨?_, by decide, ?_⟩
  · intro ev hev m p v
    rw [w8S1_trace] at hev
    rcases List.mem_cons.1 hev with rfl | hev
    · simp
    · simp only [List.mem_singleton] at hev
      subst hev
      simp
  · rw [w8S2_trace]
    simp

/-- C8 (amended): an `animate` call appends the request to the node's queue
and leaves the node's style untouched.  If the queue was empty the new entry
is activated synchronously within the call — its plans are materialized, its
start timestamp is captured and its drive loop is registered with the frame
scheduler — but the call itself performs no style write: the first write
occurs at the first subsequent frame delivery.  Otherwise the entry stays
pending: nothing is registered and only the `enq` event is recorded. -/
theorem animate_activation (s : Sys) (n : ℕ) (props : List (String × String)) (dur : ℚ)
    (easing : ℚ → ℚ) (hasCb : Bool) (tA : ℚ) :
    ((animate s n props dur easing hasCb tA).nodes n).queue
        = (s.nodes n).queue ++ [⟨s.nextId, props, dur, easing, hasCb⟩]
      ∧ ((animate s n props dur easing hasCb tA).nodes n).style = (s.nodes n).style
      ∧ ((s.nodes n).queue = [] →
          (animate s n props dur easing hasCb tA).raf
            = s.raf ++ [(n, ⟨s.nextId, tA, dur, easing,
                materialize (s.nodes n).style props, hasCb⟩)]
          ∧ (animate s n props dur easing hasCb tA).trace
            = s.trace ++ [Ev.enq n s.nextId hasCb, Ev.act n s.nextId])
      ∧ ((s.nodes n).queue ≠ [] →
          (animate s n props dur easing hasCb tA).raf = s.raf
          ∧ (animate s n props dur easing hasCb tA).trace
            = s.trace ++ [Ev.enq n s.nextId hasCb]) := by
  refine ⟨?_, ?_,
    fun hq => ⟨animate_raf_of_empty s n props dur easing hasCb tA hq,
      animate_trace_of_empty s n props dur easing hasCb tA hq⟩,
    fun hq => ⟨animate_raf_of_nonempty s n props dur easing hasCb tA hq,
      animate_trace_of_nonempty s n props dur easing hasCb tA hq⟩⟩
  · by_cases hq : (s.nodes n).queue = []
    · rw [animate_nodes_of_empty s n props dur easing hasCb tA hq, updNodes_same, hq]
      rfl
    · rw [animate_nodes_of_nonempty s n props dur easing hasCb tA hq, updNodes_same]
  · by_cases hq : (s.nodes n).queue = []
    · rw [animate_nodes_of_empty s n props dur easing hasCb tA hq, updNodes_same]
    · rw [animate_nodes_of_nonempty s n props dur easing hasCb tA hq, updNodes_same]

theorem animate_activation_witness :
    ((animate w8S0 0 [("left", "100px")] 400 id false 0).nodes 0).queue
        = [(⟨0, [("left", "100px")], 400, id, false⟩ : Entry)]
      ∧ (animate w8S0 0 [("left", "100px")] 400 id false 0).trace
          = [Ev.enq 0 0 false, Ev.act 0 0]
      ∧ (animate wS1 0 [] 100 id false 0).raf = wS1.raf := by
  refine ⟨?_, ?_, ?_⟩
  · exact ((animate_activation w8S0 0 [("left", "100px")] 400 id false 0).1).trans rfl
  · exact (((animate_activation w8S0 0 [("left", "100px")] 400 id false 0).2.2.1 rfl).2).trans rfl
  · exact ((animate_activation wS1 0 [] 100 id false 0).2.2.2 (by rw [wS1_queue]; simp)).1

/-- C9 counterexample: for `animate({}, -100)` the raw progress of the first
frame is `min(1, 16 / -100) = -4/25`, not 1 — there is no lower clamp — so
the first frame does not complete the request: no callback and no removal
happen, the entry stays queued and the loop re-registers. -/
theorem negative_duration_no_snap_counterexample :
    Ev.step 0 0 (-(4/25)) ∈ w9S2.trace
      ∧ Ev.cb 0 0 ∉ w9S2.trace
      ∧ Ev.done 0 0 ∉ w9S2.trace
      ∧ w9S2.raf = [(0, cW9)]
      ∧ (w9S2.nodes 0).queue = [(⟨0, [], -100, id, true⟩ : Entry)] := by
  refine ⟨?_, ?_, ?_, w9S2_raf, w9S2_queue⟩
  · rw [w9S2_trace]
    simp
  · rw [w9S2_trace]
    simp
  · rw [w9S2_trace]
    simp

/-- C9 (amended): a duration of exactly 0 saturates raw progress to 1 on any
delivered frame (JS division by zero yields `+Infinity`, whose minimum with
1 is 1), so the step completes as an instant snap: the `done` event fires,
the callback (when present) runs, and the entry is removed from the queue.
A negative duration, however, is not saturated — `Math.min(1, x)` has no
lower clamp — so raw progress is negative on every frame after the start
timestamp: the step performs no completion, leaves the queue unchanged and
re-registers itself forever. -/
theorem nonpositive_duration_step (s : Sys) (n : ℕ) (c : Closure) :
    (c.dur = 0 →
        stepT s c = 1
        ∧ Ev.done n c.id ∈ (runStep s n c).trace
        ∧ (c.hasCb = true → Ev.cb n c.id ∈ (runStep s n c).trace)
        ∧ ((runStep s n c).nodes n).queue = (s.nodes n).queue.tail)
      ∧ (c.dur < 0 → c.startTime < s.now →
          stepT s c < 0
          ∧ (runStep s n c).raf = s.raf ++ [(n, c)]
          ∧ (runStep s n c).trace
              = s.trace ++ (Ev.step n c.id (stepT s c) :: wEvs n (stepWrites s c))
          ∧ ((runStep s n c).nodes n).queue = (s.nodes n).queue) := by
  constructor
  · intro hd0
    have h1 : stepT s c = 1 := by simp [stepT, rawT, hd0]
    have hnlt : ¬ stepT s c < 1 := by
      rw [h1]
      exact lt_irrefl 1
    refine ⟨h1, ?_, ?_, ?_⟩
    · cases hqt : (s.nodes n).queue.tail with
      | nil =>
          rw [runStep_trace_of_ge_nil s n c hnlt hqt]
          simp
      | cons e2 tl2 =>
          rw [runStep_trace_of_ge_cons s n c e2 tl2 hnlt hqt]
          simp
    · intro hcb
      cases hqt : (s.nodes n).queue.tail with
      | nil =>
          rw [runStep_trace_of_ge_nil s n c hnlt hqt]
          simp [hcb]
      | cons e2 tl2 =>
          rw [runStep_trace_of_ge_cons s n c e2 tl2 hnlt hqt]
          simp [hcb]
    · cases hqt : (s.nodes n).queue.tail with
      | nil =>
          rw [runStep_nodes_of_ge_nil s n c hnlt hqt, updNodes_same]
      | cons e2 tl2 =>
          rw [runStep_nodes_of_ge_cons s n c e2 tl2 hnlt hqt, updNodes_same]
  · intro hneg hstart
    have hne : c.dur ≠ 0 := ne_of_lt hneg
    have hq : (s.now - c.startTime) / c.dur < 0 :=
      div_neg_of_pos_of_neg (by linarith) hneg
    have h1 : stepT s c = (s.now - c.startTime) / c.dur := by
      simp only [stepT, rawT, if_neg hne]
      exact min_eq_right (by linarith)
    have hlt : stepT s c < 1 := by
      rw [h1]
      linarith
    refine ⟨by rw [h1]; exact hq, runStep_raf_of_lt s n c hlt,
      runStep_trace_of_lt s n c hlt, ?_⟩
    rw [runStep_nodes_of_lt s n c hlt, updNodes_same]

theorem nonpositive_duration_step_witness :
    stepT { wS0 with now := 16 } cWZ = 1
      ∧ Ev.done 0 0 ∈ (runStep { wS0 with now := 16 } 0 cWZ).trace
      ∧ stepT { wS0 with now := 16 } cW9 < 0
      ∧ (runStep { wS0 with now := 16 } 0 cW9).raf
          = ({ wS0 with now := 16 } : Sys).raf ++ [(0, cW9)] := by
  have hz := (nonpositive_duration_step { wS0 with now := 16 } 0 cWZ).1 rfl
  have hn := (nonpositive_duration_step { wS0 with now := 16 } 0 cW9).2
      (by norm_num [cW9]) (by norm_num [cW9, wS0, Sys.init])
  exact ⟨hz.1, hz.2.1, hn.1, hn.2.1⟩

/-- C10: whenever a frame delivers the registered closure of node `n` in a
reachable state, the step writes only the style properties named in the
driving request: the head request of `n`'s queue exists, every other node's
state is untouched, every style property of `n` outside the request's keys
reads unchanged, and every `write` event the frame adds is on `n` with a key
of the request. -/
theorem step_writes_only_requested {s : Sys} (h : Reachable s) (n : ℕ) (tF : ℚ)
    (c : Closure) (rest : List (ℕ × Closure))
    (hp : pullClosure s.raf n = some (c, rest)) :
    ∃ e tl, (s.nodes n).queue = e :: tl
      ∧ (∀ m, m ≠ n → (frameStep s n tF).nodes m = s.nodes m)
      ∧ (∀ p, p ∉ e.props.map Prod.fst →
          styleGet ((frameStep s n tF).nodes n).style p = styleGet (s.nodes n).style p)
      ∧ (∀ m p v, Ev.write m p v ∈ (frameStep s n tF).trace →
          Ev.write m p v ∈ s.trace ∨ (m = n ∧ p ∈ e.props.map Prod.fst)) := by
  have hinv := reachable_inv h
  obtain ⟨e, tl, hq, hcid, hcdur, hchas, hcpl⟩ := hinv.rafHead n c (pullClosure_mem hp)
  refine ⟨e, tl, hq, ?_, ?_, ?_⟩
  · intro m hmn
    exact frameStep_nodes_ne s n tF m hmn
  · intro p hp2
    have hkeys : ∀ w ∈ stepWrites { s with now := tF, raf := rest } c, ¬ p = w.1 := by
      intro w hw hpw
      have hk := writesOf_keys_sub c.plans _ _ w hw
      rw [hcpl] at hk
      rw [hpw] at hp2
      exact hp2 hk
    calc styleGet ((frameStep s n tF).nodes n).style p
        = styleGet (applyWrites (s.nodes n).style
            (stepWrites { s with now := tF, raf := rest } c)) p := by
          rw [frameStep_some s n tF c rest hp, runStep_style]
      _ = styleGet (s.nodes n).style p := styleGet_applyWrites_ne _ _ _ hkeys
  · intro m p v hw
    rw [frameStep_some s n tF c rest hp] at hw
    rcases runStep_write_events _ _ _ m p v hw with hw2 | ⟨hm, hk⟩
    · exact Or.inl hw2
    · rw [hcpl] at hk
      exact Or.inr ⟨hm, hk⟩

theorem step_writes_only_requested_witness :
    (frameStep w8S1 0 16).nodes 3 = w8S1.nodes 3
      ∧ styleGet ((frameStep w8S1 0 16).nodes 0).style "top"
          = styleGet (w8S1.nodes 0).style "top" := by
  have hr : Reachable w8S1 :=
    Reachable.animate (Reachable.init w8Styles) 0 [("left", "100px")] 400 id false 0
      (by norm_num [Sys.init])
  obtain ⟨e, tl, hq, h1, h2, h3⟩ := step_writes_only_requested hr 0 16 cW8 [] w8_pull
  refine ⟨h1 3 (by norm_num), ?_⟩
  refine h2 "top" ?_
  rw [w8S1_queue] at hq
  injection hq with hq1 hq2
  rw [← hq1]
  decide

end TSQ
